import Mathlib

set_option maxRecDepth 100000

/-!
# Verification of the Veeam net-perf parser

A shallow embedding of `veeam-netperf-parser.py` (timestamp stripping,
size/duration parsing, the four regex field extractors, event
assembly, validate mode, and CSV serialization), together with proofs
of the specification claims.

Modelling conventions:
* Python strings are `String`/`List Char`; machine-independent Python
  ints are `ℤ`/`ℕ`; `None`/exceptions are `Option`.
* Python regular-expression searches are embedded as executable
  scanners that reproduce the backtracking behaviour of the concrete
  patterns in the source (leftmost start position; greedy / lazy
  quantifier order as `re` implements it for these patterns).
* Character classes: `\s` is modelled by the full set of Unicode
  whitespace characters Python uses for `str` patterns; `\d` and `\w`
  are modelled by their ASCII fragments (the log text the program is
  aimed at is ASCII; non-ASCII digits/letters are out of scope).
* `float` is modelled exactly: decimal tokens are parsed to their
  rational value and rounded to the nearest IEEE-754 binary64 value
  (round half to even), with overflow to infinity; `int(...)` of an
  infinity or NaN raises in Python, hence yields `none` here.
-/

/-- Code points of the whitespace characters matched by Python's `\s`
(and split on by `str.split()`) outside the contiguous U+2000–U+200A
block: TAB LF VT FF CR, the file/group/record/unit separators, space,
NEL, NBSP, OGHAM SPACE MARK, LINE/PARAGRAPH SEPARATOR, NARROW NBSP,
MEDIUM MATHEMATICAL SPACE, IDEOGRAPHIC SPACE. -/
def pySpaceCodes : List ℕ :=
  [9, 10, 11, 12, 13, 28, 29, 30, 31, 32, 133, 160, 5760,
   8232, 8233, 8239, 8287, 12288]

/-- Whitespace as matched by Python's `\s` (and `str.split`/`str.strip`)
on `str` patterns. -/
def pySpace (c : Char) : Bool :=
  decide (c.toNat ∈ pySpaceCodes) || (8192 ≤ c.toNat && c.toNat ≤ 8202)

/-- ASCII decimal digit, as matched by `\d` (ASCII fragment). -/
def pyDigit (c : Char) : Bool := '0' ≤ c && c ≤ '9'

/-- Word character for `\b` boundaries (`\w`, ASCII fragment). -/
def pyWord (c : Char) : Bool :=
  ('a' ≤ c && c ≤ 'z') || ('A' ≤ c && c ≤ 'Z') || pyDigit c || c = '_'

/-- ASCII lower-casing, used to model `re.I` matching. -/
def lowerC (c : Char) : Char :=
  if 'A' ≤ c ∧ c ≤ 'Z' then Char.ofNat (c.toNat + 32) else c

/-- ASCII upper-casing, used to model `str.upper()` on the unit token. -/
def upperC (c : Char) : Char :=
  if 'a' ≤ c ∧ c ≤ 'z' then Char.ofNat (c.toNat - 32) else c

/-- Case-insensitive character comparison (`re.I`). -/
def ciChar (a b : Char) : Bool := lowerC a = lowerC b

/-- Match a literal pattern (given in lower case) case-insensitively at
the head of the input; return the remaining input on success. -/
def stripCI : List Char → List Char → Option (List Char)
  | [], l => some l
  | _ :: _, [] => none
  | p :: ps, c :: cs => if lowerC c = p then stripCI ps cs else none

/-- Numeric value of a list of ASCII digits (most significant first). -/
def digitsVal (l : List Char) : ℕ :=
  l.foldl (fun a c => 10 * a + (c.toNat - 48)) 0

/-- The timestamp character class `[0-9:.\-\s]` of the `TS` pattern. -/
def tsClass (c : Char) : Bool :=
  pyDigit c || c = ':' || c = '.' || c = '-' || pySpace c

/-- Backtracking of `{19,26}` followed by `\s+`: find the largest
`k ≤ bound` with `19 ≤ k` such that the character at index `k` is
whitespace. -/
def tsFindK (l : List Char) : ℕ → Option ℕ
  | 0 => none
  | k + 1 =>
    if k + 1 < 19 then none
    else if (l.get? (k + 1)).any pySpace then some (k + 1)
    else tsFindK l k

/-- `TS = re.compile(r"^(?P<ts>[0-9:.\-\s]{19,26})\s+")` together with
`parse_ts_prefix`: on a match return the captured timestamp and the
line after the matched separator whitespace, otherwise `(None, line)`. -/
def parse_ts_prefix (line : String) : Option String × String :=
  let l := line.data
  let p := min (l.takeWhile tsClass).length 26
  match tsFindK l p with
  | none => (none, line)
  | some k => (some ⟨l.take k⟩, ⟨(l.drop k).dropWhile pySpace⟩)

theorem tsFindK_le (l : List Char) (b k : ℕ) (h : tsFindK l b = some k) :
    19 ≤ k ∧ k ≤ b ∧ (l.get? k).any pySpace := by
  induction b with
  | zero => simp [tsFindK] at h
  | succ n ih =>
    unfold tsFindK at h
    split at h
    · exact absurd h (by simp)
    · split at h
      · cases h
        exact ⟨by omega, le_refl _, by assumption⟩
      · obtain ⟨h1, h2, h3⟩ := ih h
        exact ⟨h1, by omega, h3⟩

theorem tsFindK_none (l : List Char) (b : ℕ) (h : tsFindK l b = none)
    (k : ℕ) (h19 : 19 ≤ k) (hk : k ≤ b) : ¬ (l.get? k).any pySpace := by
  induction b with
  | zero => omega
  | succ n ih =>
    unfold tsFindK at h
    split at h
    · omega
    · split at h
      · cases h
      · rcases Nat.lt_or_ge k (n + 1) with hlt | hge
        · exact ih h (by omega)
        · have : k = n + 1 := by omega
          subst this
          simp_all

theorem length_le_takeWhile_append (p : Char → Bool) (r t : List Char)
    (h : ∀ c ∈ r, p c) : r.length ≤ ((r ++ t).takeWhile p).length := by
  induction r with
  | nil => simp
  | cons c rs ih =>
    have hc : p c := h c (by simp)
    simp only [List.cons_append, List.takeWhile_cons, hc, if_true, List.length_cons]
    have := ih (fun x hx => h x (by simp [hx]))
    omega

theorem all_of_mem_take_le_takeWhile (p : Char → Bool) (l : List Char) (k : ℕ)
    (hk : k ≤ (l.takeWhile p).length) : ∀ c ∈ l.take k, p c := by
  intro c hc
  have heq : l.take k = (l.takeWhile p).take k := by
    conv_lhs => rw [← List.takeWhile_append_dropWhile (p := p) (l := l)]
    rw [List.take_append_of_le_length hk]
  rw [heq] at hc
  exact List.mem_takeWhile_imp (List.take_subset _ _ hc)

theorem parse_ts_prefix_eq (line : String) :
    parse_ts_prefix line =
      match tsFindK line.data (min (line.data.takeWhile tsClass).length 26) with
      | none => (none, line)
      | some k =>
        (some ⟨line.data.take k⟩, ⟨(line.data.drop k).dropWhile pySpace⟩) := rfl

/-- C2: a line is split into (timestamp, message) exactly when it starts
with a 19–26 character run over `[0-9:.\-\s]` followed by at least one
whitespace character; the returned timestamp is such a run, the message
is the remainder after the separating whitespace, and any other line is
returned unchanged with a null timestamp. -/
theorem C2_ts_split (line : String) :
    ((∃ r w rest, line.data = r ++ w ++ rest ∧ 19 ≤ r.length ∧ r.length ≤ 26 ∧
        (∀ c ∈ r, tsClass c) ∧ w ≠ [] ∧ (∀ c ∈ w, pySpace c)) ↔
      ( parse_ts_prefix line).1.isSome) ∧
    (∀ ts msg, parse_ts_prefix line = (some ts, msg) →
      ∃ w, line.data = ts.data ++ w ++ msg.data ∧ 19 ≤ ts.data.length ∧
        ts.data.length ≤ 26 ∧ (∀ c ∈ ts.data, tsClass c) ∧ w ≠ [] ∧
        (∀ c ∈ w, pySpace c)) ∧
    (( parse_ts_prefix line).1 = none → parse_ts_prefix line = (none, line)) := by
  rw [ parse_ts_prefix_eq]
  rcases hfk : tsFindK line.data (min (line.data.takeWhile tsClass).length 26)
    with _ | k
  · refine ⟨⟨?_, ?_⟩, ?_, ?_⟩
    · rintro ⟨r, w, rest, hdec, h19, h26, hcls, hw, hwsp⟩
      exfalso
      obtain ⟨c, w', rfl⟩ : ∃ c w', w = c :: w' := by
        cases w with
        | nil => exact absurd rfl hw
        | cons c w' => exact ⟨c, w', rfl⟩
      have hsp : pySpace c := hwsp c (by simp)
      have hget : line.data.get? r.length = some c := by
        have hre : r ++ (c :: w') ++ rest = r ++ (c :: (w' ++ rest)) := by simp
        rw [hdec, hre, List.get?_eq_getElem?,
          List.getElem?_append_right (le_refl r.length)]
        simp
      have hp : r.length ≤ min (line.data.takeWhile tsClass).length 26 := by
        have h1 : r.length ≤ (line.data.takeWhile tsClass).length := by
          rw [hdec, List.append_assoc]
          exact length_le_takeWhile_append tsClass r _ hcls
        omega
      have := tsFindK_none line.data _ hfk r.length h19 hp
      rw [hget] at this
      simp [hsp] at this
    · intro hs
      simp at hs
    · intro ts msg hts
      simp at hts
    · intro _
      rfl
  · obtain ⟨h19, hkle, hksp⟩ := tsFindK_le _ _ _ hfk
    rcases hgk : line.data.get? k with _ | c
    · rw [hgk] at hksp; simp at hksp
    · rw [hgk] at hksp
      simp only [Option.any_some] at hksp
      have hgek := List.get?_eq_getElem? line.data k ▸ hgk
      obtain ⟨hklt, hgv⟩ := List.getElem?_eq_some.mp hgek
      have hdk : line.data.drop k = c :: line.data.drop (k + 1) := by
        rw [List.drop_eq_getElem_cons hklt, hgv]
      have hlen : (line.data.take k).length = k := by
        rw [List.length_take]
        omega
      refine ⟨⟨?_, ?_⟩, ?_, ?_⟩
      · intro _
        simp
      · intro _
        refine ⟨line.data.take k, [c], line.data.drop (k + 1), ?_, ?_, ?_, ?_,
          by simp, ?_⟩
        · rw [List.append_assoc]
          show line.data = line.data.take k ++ (c :: line.data.drop (k + 1))
          rw [← hdk, List.take_append_drop]
        · omega
        · omega
        · exact all_of_mem_take_le_takeWhile tsClass line.data k (by omega)
        · intro x hx
          simp at hx
          subst hx
          exact hksp
      · intro ts msg hts
        simp only [Prod.mk.injEq, Option.some.injEq] at hts
        obtain ⟨hts1, hts2⟩ := hts
        refine ⟨(line.data.drop k).takeWhile pySpace, ?_, ?_, ?_, ?_, ?_, ?_⟩
        · rw [← hts1, ← hts2]
          show line.data = line.data.take k ++ _ ++ _
          rw [List.append_assoc, List.takeWhile_append_dropWhile,
            List.take_append_drop]
        · rw [← hts1]
          show 19 ≤ (line.data.take k).length
          omega
        · rw [← hts1]
          show (line.data.take k).length ≤ 26
          omega
        · rw [← hts1]
          exact all_of_mem_take_le_takeWhile tsClass line.data k (by omega)
        · rw [hdk]
          simp [List.takeWhile_cons, hksp]
        · intro x hx
          exact List.mem_takeWhile_imp hx
      · intro hnone
        simp at hnone

theorem C2_ts_split_witness :
    ∃ w, ("2024-01-02 03:04:05 Job started").data =
      ("2024-01-02 03:04:05").data ++ w ++ ("Job started").data ∧
      19 ≤ ("2024-01-02 03:04:05").data.length ∧
      ("2024-01-02 03:04:05").data.length ≤ 26 ∧
      (∀ c ∈ ("2024-01-02 03:04:05").data, tsClass c) ∧ w ≠ [] ∧
      (∀ c ∈ w, pySpace c) :=
  (C2_ts_split "2024-01-02 03:04:05 Job started").2.1
    "2024-01-02 03:04:05" "Job started" (by decide)

/-- An integer fraction with positive denominator, normalized to lowest
terms by `mkFrac`; carries exact binary64 values so that all arithmetic
kernel-reduces. -/
structure Frac where
  num : ℤ
  den : ℕ
deriving DecidableEq, Repr

/-- The rational value of a fraction. -/
def Frac.val (f : Frac) : ℚ := (f.num : ℚ) / (f.den : ℚ)

/-- Build a normalized fraction (lowest terms, positive denominator). -/
def mkFrac (n : ℤ) (d : ℕ) : Frac :=
  if d = 0 then ⟨0, 1⟩
  else
    let g := Nat.gcd n.natAbs d
    ⟨n / (g : ℤ), d / g⟩

/-- Python float values: IEEE-754 binary64 (finite values carried as
their exact rational value in lowest terms), infinities and NaN. -/
inductive PyFloat where
  | finite (f : Frac)
  | pinf
  | ninf
  | nan
deriving DecidableEq, Repr

/-- Fueled binary recursion computing `⌊log₂ n⌋`. -/
def log2Aux : ℕ → ℕ → ℕ
  | 0, _ => 0
  | fuel + 1, n => if n < 2 then 0 else log2Aux fuel (n / 2) + 1

/-- `⌊log₂ n⌋` for `n ≥ 1` (0 at 0). -/
def log2f (n : ℕ) : ℕ := log2Aux n n

/-- Is `a / b < 2 ^ k` (for a nonnegative fraction `a / b`)? -/
def fracLtPow2 (a b : ℕ) (k : ℤ) : Bool :=
  if 0 ≤ k then a < 2 ^ k.toNat * b else a * 2 ^ (-k).toNat < b

/-- `⌊log₂ (a / b)⌋` for `a, b ≥ 1`. -/
def fracLog2 (a b : ℕ) : ℤ :=
  let k : ℤ := (log2f a : ℤ) - (log2f b : ℤ)
  if fracLtPow2 a b k then k - 1 else k

/-- Round the nonnegative fraction `a / b` to the nearest natural
number, ties to even. -/
def rndHalfEven (a b : ℕ) : ℕ :=
  let q := a / b
  let r := a % b
  if 2 * r < b then q
  else if b < 2 * r then q + 1
  else if q % 2 = 0 then q else q + 1

/-- The binary64 value `± M * 2 ^ E` as a normalized fraction (the
magnitude is computed in `ℕ` and then signed). -/
def scaled (neg : Bool) (M : ℕ) (E : ℤ) : Frac :=
  if 0 ≤ E then
    let v : ℕ := M * 2 ^ E.toNat
    ⟨if neg then -(v : ℤ) else (v : ℤ), 1⟩
  else mkFrac (if neg then -(M : ℤ) else (M : ℤ)) (2 ^ (-E).toNat)

/-- Is `M * 2 ^ E ≥ 2 ^ 1024` (the binary64 overflow threshold)? -/
def overPow2_1024 (M : ℕ) (E : ℤ) : Bool :=
  if 0 ≤ E then 2 ^ 1024 ≤ M * 2 ^ E.toNat else 2 ^ 1024 * 2 ^ (-E).toNat ≤ M

/-- Round an exact fraction to the nearest IEEE-754 binary64 value
(round half to even, overflow to an infinity): the rounding CPython
applies in its string→float conversion. The representable significand
grid at exponent `E = max(⌊log₂|x|⌋ - 52, -1074)` is `{M * 2^E}`; the
nearest grid point is the nearest binary64 value (an infinity from
`2^1024` up); `roundDoubleCore` applies the overflow cut. -/
def roundDoubleCore (neg : Bool) (M : ℕ) (E : ℤ) : PyFloat :=
  if overPow2_1024 M E then (if neg then .ninf else .pinf)
  else .finite (scaled neg M E)

/-- Round an exact fraction to the nearest binary64 value. -/
def roundDouble (x : Frac) : PyFloat :=
  if x.num = 0 then .finite ⟨0, 1⟩
  else
    let a := x.num.natAbs
    let b := x.den
    let e := fracLog2 a b
    let E := max (e - 52) (-1074)
    let A := if 0 ≤ E then a else a * 2 ^ (-E).toNat
    let B := if 0 ≤ E then b * 2 ^ E.toNat else b
    roundDoubleCore (decide (x.num < 0)) (rndHalfEven A B) E

/-- Parse a run of ASCII digits that may contain single underscores
between digits (CPython numeric-literal grammar); stops at the first
character that fits neither; `none` on a misplaced underscore.
Returns (value, number of digits, rest). -/
def digitRun : ℕ → ℕ → List Char → Option (ℕ × ℕ × List Char)
  | v, n, [] => some (v, n, [])
  | v, n, c :: cs =>
    if pyDigit c then digitRun (10 * v + (c.toNat - 48)) (n + 1) cs
    else if c = '_' then
      match cs with
      | d :: ds =>
        if pyDigit d then digitRun (10 * v + (d.toNat - 48)) (n + 1) ds
        else none
      | [] => none
    else some (v, n, c :: cs)

/-- Like `digitRun`, but consumes nothing (zero digits) when the input
does not start with a digit. -/
def digitRun0 (l : List Char) : Option (ℕ × ℕ × List Char) :=
  match l with
  | c :: cs => if pyDigit c then digitRun 0 0 (c :: cs) else some (0, 0, c :: cs)
  | [] => some (0, 0, [])

/-- Optional fraction `[. digits]` of a CPython float literal. -/
def fracPart (l : List Char) : Option (ℕ × ℕ × List Char) :=
  match l with
  | '.' :: cs => digitRun0 cs
  | _ => some (0, 0, l)

/-- Mandatory exponent digits (at least one, starting with a digit). -/
def expDigits (neg : Bool) (l : List Char) : Option (ℤ × List Char) :=
  match l with
  | c :: cs =>
    if pyDigit c then
      match digitRun 0 0 (c :: cs) with
      | some (v, _, r) => some ((if neg then -(v : ℤ) else (v : ℤ)), r)
      | none => none
    else none
  | [] => none

/-- Optional exponent `[(e|E) [+|-] digits]` of a CPython float literal. -/
def expPart (l : List Char) : Option (ℤ × List Char) :=
  match l with
  | c :: cs =>
    if c = 'e' ∨ c = 'E' then
      match cs with
      | '+' :: ds => expDigits false ds
      | '-' :: ds => expDigits true ds
      | ds => expDigits false ds
    else some (0, c :: cs)
  | [] => some (0, [])

/-- Unsigned body of a CPython float literal
`digits [. digits] [(e|E) [+|-] digits]` (at least one mantissa digit):
returns (mantissa, fraction-digit count, exponent). -/
def floatParts (l : List Char) : Option (ℕ × ℕ × ℤ) :=
  match digitRun0 l with
  | none => none
  | some (v1, n1, r1) =>
    match fracPart r1 with
    | none => none
    | some (v2, n2, r2) =>
      if n1 + n2 = 0 then none
      else
        match expPart r2 with
        | none => none
        | some (ex, r3) =>
          if r3 = [] then some (v1 * 10 ^ n2 + v2, n2, ex) else none

/-- Strip leading and trailing whitespace (`str.strip()`). -/
def trimSpaces (l : List Char) : List Char :=
  ((l.dropWhile pySpace).reverse.dropWhile pySpace).reverse

/-- Case-insensitive equality against a lower-case pattern. -/
def ciEqList : List Char → List Char → Bool
  | [], [] => true
  | c :: cs, p :: ps => lowerC c = p && ciEqList cs ps
  | _, _ => false

/-- Strip an optional leading sign: returns (negative?, rest). -/
def signSplit (t : List Char) : Bool × List Char :=
  if t.head? = some '+' then (false, t.tail)
  else if t.head? = some '-' then (true, t.tail)
  else (false, t)

/-- The exact rational value denoted by a decimal float token
(sign and body, surrounding whitespace allowed), as an exact fraction; `none` if the
token is not in the float-literal grammar. -/
def floatTokVal (l : List Char) : Option Frac :=
  let (neg, b) := signSplit (trimSpaces l)
  match floatParts b with
  | none => none
  | some (m, fd, ex) =>
    let n : ℤ := if neg then -(m : ℤ) else (m : ℤ)
    let e : ℤ := ex - fd
    some (if 0 ≤ e then ⟨n * 10 ^ e.toNat, 1⟩ else mkFrac n (10 ^ (-e).toNat))

/-- CPython `float(str)`: the keywords `inf`/`infinity`/`nan` (with
optional sign, case-insensitive), otherwise the decimal token correctly
rounded to binary64; `none` models `ValueError`. -/
def pyFloatOfStr (l : List Char) : Option PyFloat :=
  let (neg, b) := signSplit (trimSpaces l)
  if ciEqList b ['i', 'n', 'f'] || ciEqList b ['i', 'n', 'f', 'i', 'n', 'i', 't', 'y'] then
    some (if neg then .ninf else .pinf)
  else if ciEqList b ['n', 'a', 'n'] then some .nan
  else
    match floatTokVal l with
    | none => none
    | some q => some (roundDouble q)

/-- `str.split()`: split on whitespace runs, dropping empty tokens. -/
def pySplitAux : List Char → List Char → List (List Char)
  | acc, [] => if acc = [] then [] else [acc.reverse]
  | acc, c :: cs =>
    if pySpace c then
      (if acc = [] then pySplitAux [] cs else acc.reverse :: pySplitAux [] cs)
    else pySplitAux (c :: acc) cs

/-- `str.split()` on a character list. -/
def pySplit (l : List Char) : List (List Char) := pySplitAux [] l

/-- The `mult` dictionary of `parse_size`, keyed by the upper-cased
unit token (`d[k]` on a missing key raises, hence `none`). -/
def multOf (u : List Char) : Option ℕ :=
  if u = ['K', 'B'] then some (2 ^ 10)
  else if u = ['M', 'B'] then some (2 ^ 20)
  else if u = ['G', 'B'] then some (2 ^ 30)
  else if u = ['T', 'B'] then some (2 ^ 40)
  else none

/-- Multiply a Python float by a positive Python int (here always a
power of two, so the product is exact up to overflow to infinity). -/
def pyFloatMulNat (f : PyFloat) (m : ℕ) : PyFloat :=
  match f with
  | .finite q =>
    if 2 ^ 1024 * q.den ≤ (q.num * (m : ℤ)).natAbs then
      (if q.num * (m : ℤ) < 0 then .ninf else .pinf)
    else .finite (mkFrac (q.num * (m : ℤ)) q.den)
  | .pinf => .pinf
  | .ninf => .ninf
  | .nan => .nan

/-- CPython `int(x)` on a float: truncate toward zero; raises on an
infinity or NaN (`none`). -/
def truncToInt : PyFloat → Option ℤ
  | .finite q =>
    some (if 0 ≤ q.num then q.num / (q.den : ℤ) else -((-q.num) / (q.den : ℤ)))
  | _ => none

/-- `parse_size`: `num, unit = text.strip().split()` then
`int(float(num) * mult[unit.upper()])`, any exception giving `None`. -/
def parse_size (text : String) : Option ℤ :=
  match pySplit (trimSpaces text.data) with
  | [num, unit] =>
    match multOf (unit.map upperC) with
    | some m =>
      match pyFloatOfStr num with
      | some f => truncToInt (pyFloatMulNat f m)
      | none => none
    | none => none
  | _ => none

/-- CPython `int(str)`: optional surrounding whitespace, optional sign,
then decimal digits with single underscores allowed between digits;
`none` models `ValueError`. -/
def pyIntOfStr (l : List Char) : Option ℤ :=
  let (neg, b) := signSplit (trimSpaces l)
  match b with
  | c :: cs =>
    if pyDigit c then
      match digitRun 0 0 (c :: cs) with
      | some (v, _, []) => some (if neg then -(v : ℤ) else (v : ℤ))
      | _ => none
    else none
  | [] => none

/-- `str.split(sep)` for a one-character separator (keeps empty parts). -/
def splitOnAux (sep : Char) : List Char → List Char → List (List Char)
  | acc, [] => [acc.reverse]
  | acc, c :: cs =>
    if c = sep then acc.reverse :: splitOnAux sep [] cs
    else splitOnAux sep (c :: acc) cs

/-- `str.split(sep)` on a character list. -/
def splitOn (sep : Char) (l : List Char) : List (List Char) := splitOnAux sep [] l

/-- `parse_dur`: `h,m,s = [int(x) for x in hms.split(":")]` then
`h*3600 + m*60 + s`; the function performs no validation of its own and
an `int` failure or a wrong part count raises (modelled as `none`). -/
def parse_dur (hms : String) : Option ℤ :=
  match (splitOn ':' hms.data).mapM pyIntOfStr with
  | some [h, m, s] => some (h * 3600 + m * 60 + s)
  | _ => none

theorem toNat_of_pyDigit (c : Char) (h : pyDigit c = true) :
    48 ≤ c.toNat ∧ c.toNat ≤ 57 := by
  simp only [pyDigit, Bool.and_eq_true, decide_eq_true_eq] at h
  exact ⟨h.1, h.2⟩

theorem pySpace_eq_false_of_digit (c : Char) (h : pyDigit c = true) :
    pySpace c = false := by
  obtain ⟨hn1, hn2⟩ := toNat_of_pyDigit c h
  rw [← Bool.not_eq_true]
  intro hs
  simp only [pySpace, pySpaceCodes, Bool.or_eq_true, Bool.and_eq_true,
    List.mem_cons, List.not_mem_nil, or_false,
    decide_eq_true_eq] at hs
  omega

theorem ne_of_pyDigit (c d : Char) (h : pyDigit c = true)
    (hd : pyDigit d = false) : c ≠ d := by
  intro he
  subst he
  rw [h] at hd
  cases hd

theorem lowerC_of_pyDigit (c : Char) (h : pyDigit c = true) : lowerC c = c := by
  obtain ⟨hn1, hn2⟩ := toNat_of_pyDigit c h
  unfold lowerC
  rw [if_neg]
  intro ⟨ha, _⟩
  have h65 : 65 ≤ c.toNat := ha
  omega

theorem dropWhile_eq_self_of_false (p : Char → Bool) (l : List Char)
    (h : ∀ c ∈ l, p c = false) : l.dropWhile p = l := by
  cases l with
  | nil => rfl
  | cons c cs => simp [List.dropWhile_cons, h c (by simp)]

theorem trimSpaces_eq_self (l : List Char) (h : ∀ c ∈ l, pySpace c = false) :
    trimSpaces l = l := by
  unfold trimSpaces
  rw [dropWhile_eq_self_of_false _ _ h,
    dropWhile_eq_self_of_false _ _ (fun c hc => h c (List.mem_reverse.mp hc)),
    List.reverse_reverse]

theorem digitRun_all_digits (l : List Char) (h : ∀ c ∈ l, pyDigit c = true) :
    ∀ v n, digitRun v n l =
      some (l.foldl (fun a c => 10 * a + (c.toNat - 48)) v, n + l.length, []) := by
  induction l with
  | nil => intro v n; simp [digitRun]
  | cons c cs ih =>
    intro v n
    have hc : pyDigit c = true := h c (by simp)
    rw [digitRun.eq_def]
    simp only [hc, if_true]
    rw [ih (fun x hx => h x (by simp [hx]))]
    simp only [List.foldl_cons, List.length_cons]
    have harith : n + 1 + cs.length = n + (cs.length + 1) := by omega
    rw [harith]

theorem pyIntOfStr_digits (l : List Char) (hne : l ≠ [])
    (h : ∀ c ∈ l, pyDigit c = true) : pyIntOfStr l = some (digitsVal l) := by
  obtain ⟨c, cs, rfl⟩ : ∃ c cs, l = c :: cs := by
    cases l with
    | nil => exact absurd rfl hne
    | cons c cs => exact ⟨c, cs, rfl⟩
  have hc : pyDigit c = true := h c (by simp)
  have htrim : trimSpaces (c :: cs) = c :: cs :=
    trimSpaces_eq_self _ (fun x hx => pySpace_eq_false_of_digit x (h x hx))
  have hsign : signSplit (trimSpaces (c :: cs)) = (false, c :: cs) := by
    rw [htrim]
    unfold signSplit
    rw [if_neg, if_neg] <;> simp only [List.head?_cons, Option.some.injEq]
    · exact ne_of_pyDigit c '-' hc (by decide)
    · exact ne_of_pyDigit c '+' hc (by decide)
  unfold pyIntOfStr
  rw [hsign]
  simp only [if_pos hc, digitRun_all_digits (c :: cs) h 0 0]
  rfl

theorem splitOnAux_sep (sep : Char) (a r acc : List Char)
    (h : ∀ c ∈ a, c ≠ sep) :
    splitOnAux sep acc (a ++ sep :: r) =
      (acc.reverse ++ a) :: splitOnAux sep [] r := by
  induction a generalizing acc with
  | nil => simp [splitOnAux]
  | cons c cs ih =>
    have hc : c ≠ sep := h c (by simp)
    simp only [List.cons_append, splitOnAux, if_neg hc, List.append_eq]
    rw [ih _ (fun x hx => h x (by simp [hx]))]
    simp

theorem splitOnAux_no_sep (sep : Char) (l acc : List Char)
    (h : ∀ c ∈ l, c ≠ sep) :
    splitOnAux sep acc l = [acc.reverse ++ l] := by
  induction l generalizing acc with
  | nil => simp [splitOnAux]
  | cons c cs ih =>
    have hc : c ≠ sep := h c (by simp)
    simp only [splitOnAux, if_neg hc]
    rw [ih _ (fun x hx => h x (by simp [hx]))]
    simp

theorem parse_dur_digits (a b c : List Char)
    (ha : a ≠ []) (hb : b ≠ []) (hc : c ≠ [])
    (da : ∀ x ∈ a, pyDigit x = true) (db : ∀ x ∈ b, pyDigit x = true)
    (dc : ∀ x ∈ c, pyDigit x = true) :
    parse_dur ⟨a ++ ':' :: b ++ ':' :: c⟩ =
      some ((digitsVal a : ℤ) * 3600 + (digitsVal b : ℤ) * 60 +
        (digitsVal c : ℤ)) := by
  have hsplit : splitOn ':' (a ++ ':' :: b ++ ':' :: c) = [a, b, c] := by
    unfold splitOn
    have h1 : a ++ ':' :: b ++ ':' :: c = a ++ ':' :: (b ++ ':' :: c) := by simp
    rw [h1, splitOnAux_sep ':' a _ []
      (fun x hx => ne_of_pyDigit x ':' (da x hx) (by decide)),
      splitOnAux_sep ':' b _ []
      (fun x hx => ne_of_pyDigit x ':' (db x hx) (by decide)),
      splitOnAux_no_sep ':' c []
      (fun x hx => ne_of_pyDigit x ':' (dc x hx) (by decide))]
    simp
  unfold parse_dur
  show (match (splitOn ':' (a ++ ':' :: b ++ ':' :: c)).mapM pyIntOfStr with
    | some [h, m, s] => some (h * 3600 + m * 60 + s)
    | _ => none) = _
  rw [hsplit]
  simp only [List.mapM_cons, List.mapM_nil,
    pyIntOfStr_digits a ha da, pyIntOfStr_digits b hb db,
    pyIntOfStr_digits c hc dc, Option.pure_def, Option.bind_eq_bind,
    Option.some_bind]

/-- C6: on a strict `H:M:S` token whose three components are nonempty
digit strings (unbounded), `parse_dur` returns `H*3600 + M*60 + S`. -/
theorem C6_parse_dur (a b c : List Char)
    (ha : a ≠ []) (hb : b ≠ []) (hc : c ≠ [])
    (da : ∀ x ∈ a, pyDigit x = true) (db : ∀ x ∈ b, pyDigit x = true)
    (dc : ∀ x ∈ c, pyDigit x = true) :
    parse_dur ⟨a ++ ':' :: b ++ ':' :: c⟩ =
      some ((digitsVal a : ℤ) * 3600 + (digitsVal b : ℤ) * 60 +
        (digitsVal c : ℤ)) :=
  parse_dur_digits a b c ha hb hc da db dc

theorem C6_parse_dur_witness : parse_dur "01:02:03" = some 3723 := by
  have h := C6_parse_dur ['0', '1'] ['0', '2'] ['0', '3']
    (by decide) (by decide) (by decide) (by decide) (by decide) (by decide)
  exact h.trans (by decide)


theorem mkFrac_den_pos (n : ℤ) (d : ℕ) (hd : 0 < d) : 0 < (mkFrac n d).den := by
  unfold mkFrac
  rw [if_neg (by omega : ¬ d = 0)]
  dsimp only
  have hgd : Nat.gcd n.natAbs d ∣ d := Nat.gcd_dvd_right _ _
  have hg0 : Nat.gcd n.natAbs d ≠ 0 := by
    intro h0
    have := Nat.eq_zero_of_gcd_eq_zero_right h0
    omega
  exact Nat.div_pos (Nat.le_of_dvd hd hgd) (by omega)

theorem mkFrac_val (n : ℤ) (d : ℕ) (hd : 0 < d) :
    (mkFrac n d).val = (n : ℚ) / (d : ℚ) := by
  unfold mkFrac Frac.val
  rw [if_neg (by omega : ¬ d = 0)]
  dsimp only
  have hgd : Nat.gcd n.natAbs d ∣ d := Nat.gcd_dvd_right _ _
  have hgn : ((Nat.gcd n.natAbs d : ℕ) : ℤ) ∣ n :=
    Int.natCast_dvd.mpr (Nat.gcd_dvd_left _ _)
  have hg0 : Nat.gcd n.natAbs d ≠ 0 := by
    intro h0
    have := Nat.eq_zero_of_gcd_eq_zero_right h0
    omega
  have hgq : ((Nat.gcd n.natAbs d : ℕ) : ℚ) ≠ 0 := Nat.cast_ne_zero.mpr hg0
  have hdq : (d : ℚ) ≠ 0 := Nat.cast_ne_zero.mpr (by omega)
  rw [Int.cast_div_charZero hgn, Nat.cast_div hgd hgq]
  push_cast
  field_simp

theorem truncToInt_finite (f : Frac) (hden : 0 < f.den) :
    truncToInt (.finite f) =
      some (if 0 ≤ f.val then ⌊f.val⌋ else -⌊-f.val⌋) := by
  have hdq : (0 : ℚ) < (f.den : ℚ) := by exact_mod_cast hden
  show some (if 0 ≤ f.num then f.num / (f.den : ℤ) else -((-f.num) / (f.den : ℤ))) = _
  unfold Frac.val
  congr 1
  by_cases hn : 0 ≤ f.num
  · rw [if_pos hn, if_pos (div_nonneg (by exact_mod_cast hn) hdq.le)]
    exact (Rat.floor_intCast_div_natCast f.num f.den).symm
  · rw [if_neg hn, if_neg]
    · rw [show -((f.num : ℚ) / (f.den : ℚ)) = ((-f.num : ℤ) : ℚ) / (f.den : ℚ) by
        push_cast; ring]
      rw [Rat.floor_intCast_div_natCast]
    · rw [not_le]
      apply div_neg_of_neg_of_pos _ hdq
      exact_mod_cast not_le.mp hn

theorem pyFloatMulNat_finite (q : Frac) (m : ℕ) (hden : 0 < q.den)
    (hlt : |q.val * (m : ℚ)| < 2 ^ 1024) :
    pyFloatMulNat (.finite q) m = .finite (mkFrac (q.num * m) q.den) ∧
      (mkFrac (q.num * m) q.den).val = q.val * m := by
  have hdq : (0 : ℚ) < (q.den : ℚ) := by exact_mod_cast hden
  have hvm : q.val * (m : ℚ) = ((q.num * m : ℤ) : ℚ) / (q.den : ℚ) := by
    unfold Frac.val
    push_cast
    ring
  constructor
  · show (if 2 ^ 1024 * q.den ≤ (q.num * (m : ℤ)).natAbs then
        (if q.num * (m : ℤ) < 0 then PyFloat.ninf else PyFloat.pinf)
      else PyFloat.finite (mkFrac (q.num * (m : ℤ)) q.den)) = _
    rw [if_neg]
    intro hge
    apply absurd hlt
    rw [not_lt, hvm, abs_div, abs_of_pos hdq, le_div_iff₀ hdq]
    calc ((2 : ℚ) ^ 1024) * (q.den : ℚ)
        = (((2 ^ 1024 * q.den : ℕ) : ℚ)) := by push_cast; ring
      _ ≤ (((q.num * (m : ℤ)).natAbs : ℕ) : ℚ) := by exact_mod_cast hge
      _ = |((q.num * (m : ℤ) : ℤ) : ℚ)| := by rw [Int.cast_natAbs, Int.cast_abs]
  · rw [mkFrac_val _ _ hden, hvm]

theorem scaled_den_pos (neg : Bool) (M : ℕ) (E : ℤ) :
    0 < (scaled neg M E).den := by
  unfold scaled
  dsimp only
  split
  · exact Nat.one_pos
  · exact mkFrac_den_pos _ _ (Nat.two_pow_pos _)

theorem roundDoubleCore_finite (neg : Bool) (M : ℕ) (E : ℤ) (f : Frac)
    (h : roundDoubleCore neg M E = .finite f) : f = scaled neg M E := by
  unfold roundDoubleCore at h
  split at h
  · split at h <;> cases h
  · injection h with h
    exact h.symm

theorem roundDouble_den_pos (x : Frac) (f : Frac)
    (h : roundDouble x = .finite f) : 0 < f.den := by
  unfold roundDouble at h
  split at h
  · injection h with h
    subst h
    decide
  · dsimp only at h
    rw [roundDoubleCore_finite _ _ _ _ h]
    exact scaled_den_pos _ _ _

theorem floatParts_none_of_head (c : Char) (cs : List Char)
    (h1 : pyDigit c = false) (h2 : c ≠ '.') : floatParts (c :: cs) = none := by
  have hdr : digitRun0 (c :: cs) = some (0, 0, c :: cs) := by
    simp [digitRun0, h1]
  have hfr : fracPart (c :: cs) = some (0, 0, c :: cs) := by
    rw [fracPart.eq_def]
    split
    · rename_i heq
      rw [List.cons.injEq] at heq
      exact absurd heq.1 h2
    · rfl
  unfold floatParts
  rw [hdr]
  simp [hfr]

theorem not_numeric_head_of_lower (c : Char)
    (h : lowerC c = 'i' ∨ lowerC c = 'n') : pyDigit c = false ∧ c ≠ '.' := by
  constructor
  · cases hd : pyDigit c
    · rfl
    · rw [lowerC_of_pyDigit c hd] at h
      rcases h with h | h <;> (subst h; exact absurd hd (by decide))
  · intro he
    subst he
    rcases h with h | h <;> exact absurd h (by decide)

theorem pyFloatOfStr_of_tokVal (l : List Char) (q : Frac)
    (h : floatTokVal l = some q) : pyFloatOfStr l = some (roundDouble q) := by
  have h0 := h
  unfold floatTokVal at h0
  unfold pyFloatOfStr
  rcases hsb : signSplit (trimSpaces l) with ⟨neg, b⟩
  simp only [hsb] at h0 ⊢
  obtain ⟨m, fd, ex, hfp⟩ : ∃ m fd ex, floatParts b = some (m, fd, ex) := by
    rcases hfp : floatParts b with _ | ⟨m, fd, ex⟩
    · rw [hfp] at h0; cases h0
    · exact ⟨m, fd, ex, rfl⟩
  obtain ⟨c, cs, rfl⟩ : ∃ c cs, b = c :: cs := by
    cases b with
    | nil =>
      rw [show floatParts [] = none from rfl] at hfp
      cases hfp
    | cons c cs => exact ⟨c, cs, rfl⟩
  have hkw : ∀ pat : List Char, pat.head? = some 'i' ∨ pat.head? = some 'n' →
      ciEqList (c :: cs) pat = false := by
    intro pat hpat
    cases hci : ciEqList (c :: cs) pat
    · rfl
    · exfalso
      rcases hp : pat with _ | ⟨p, ps⟩
      · rw [hp] at hci
        rw [show ciEqList (c :: cs) [] = false from rfl] at hci
        cases hci
      · rw [hp] at hci
        unfold ciEqList at hci
        rw [Bool.and_eq_true, decide_eq_true_eq] at hci
        rw [hp] at hpat
        simp only [List.head?_cons, Option.some.injEq] at hpat
        have hlo : lowerC c = 'i' ∨ lowerC c = 'n' := by
          rcases hpat with h' | h' <;> [left; right] <;> rw [hci.1, h']
        obtain ⟨hd1, hd2⟩ := not_numeric_head_of_lower c hlo
        rw [floatParts_none_of_head c cs hd1 hd2] at hfp
        cases hfp
  rw [hkw ['i', 'n', 'f'] (by simp),
    hkw ['i', 'n', 'f', 'i', 'n', 'i', 't', 'y'] (by simp),
    hkw ['n', 'a', 'n'] (by simp)]
  simp only [Bool.or_self, Bool.false_or, if_false, Bool.false_eq_true]
  rw [h]

theorem pyFloatOfStr_finite_den_pos (l : List Char) (f : Frac)
    (h : pyFloatOfStr l = some (.finite f)) : 0 < f.den := by
  unfold pyFloatOfStr at h
  rcases hsb : signSplit (trimSpaces l) with ⟨neg, b⟩
  simp only [hsb] at h
  split at h
  · cases neg <;> simp at h
  · split at h
    · simp at h
    · rcases htk : floatTokVal l with _ | q
      · simp only [htk] at h
        cases h
      · simp only [htk] at h
        injection h with h
        exact roundDouble_den_pos q f h

theorem pyFloatMulNat_overflow (q : Frac) (m : ℕ) (hden : 0 < q.den)
    (hge : (2 : ℚ) ^ 1024 ≤ |q.val * (m : ℚ)|) :
    truncToInt (pyFloatMulNat (.finite q) m) = none := by
  have hdq : (0 : ℚ) < (q.den : ℚ) := by exact_mod_cast hden
  have hvm : q.val * (m : ℚ) = ((q.num * m : ℤ) : ℚ) / (q.den : ℚ) := by
    unfold Frac.val
    push_cast
    ring
  have hcond : 2 ^ 1024 * q.den ≤ (q.num * (m : ℤ)).natAbs := by
    rw [hvm, abs_div, abs_of_pos hdq, le_div_iff₀ hdq] at hge
    have hA : (((q.num * (m : ℤ)).natAbs : ℕ) : ℚ) =
        |((q.num * (m : ℤ) : ℤ) : ℚ)| := by
      rw [Int.cast_natAbs, Int.cast_abs]
    have hB : (((2 ^ 1024 * q.den : ℕ) : ℚ)) = (2 : ℚ) ^ 1024 * (q.den : ℚ) := by
      push_cast
      ring
    have h2 : (((2 ^ 1024 * q.den : ℕ) : ℚ)) ≤
        (((q.num * (m : ℤ)).natAbs : ℕ) : ℚ) := by
      rw [hA, hB]
      exact hge
    exact_mod_cast h2
  show truncToInt (if 2 ^ 1024 * q.den ≤ (q.num * (m : ℤ)).natAbs then
      (if q.num * (m : ℤ) < 0 then PyFloat.ninf else PyFloat.pinf)
    else PyFloat.finite (mkFrac (q.num * (m : ℤ)) q.den)) = none
  rw [if_pos hcond]
  by_cases hneg : q.num * (m : ℤ) < 0
  · rw [if_pos hneg]
    rfl
  · rw [if_neg hneg]
    rfl

/-- C3 (amended): on `<number> <unit>` input, `parse_size` returns the
number — rounded to the nearest IEEE-754 binary64 value, which is how
CPython's `float` reads it — multiplied by the unit's binary byte
multiplier and truncated toward zero when that product is finite; when
the number reads as an infinity or NaN, or the product overflows the
binary64 range (reaches `2^1024` in magnitude), it returns `none`; on
any malformed input (wrong token count, unrecognized unit, non-numeric
value) it also returns `none` rather than raising (exceptions are
modelled by `none` throughout, so the function is total). -/
theorem C3_parse_size (s : String) :
    (∀ toks, pySplit (trimSpaces s.data) = toks → toks.length ≠ 2 →
      parse_size s = none) ∧
    (∀ num unit, pySplit (trimSpaces s.data) = [num, unit] →
      multOf (unit.map upperC) = none → parse_size s = none) ∧
    (∀ num unit m, pySplit (trimSpaces s.data) = [num, unit] →
      multOf (unit.map upperC) = some m → pyFloatOfStr num = none →
      parse_size s = none) ∧
    (∀ num unit m q f, pySplit (trimSpaces s.data) = [num, unit] →
      multOf (unit.map upperC) = some m →
      floatTokVal num = some q → roundDouble q = PyFloat.finite f →
      |f.val * (m : ℚ)| < 2 ^ 1024 →
      parse_size s = some (if 0 ≤ f.val * (m : ℚ) then ⌊f.val * (m : ℚ)⌋
        else -⌊-(f.val * (m : ℚ))⌋)) ∧
    (∀ num unit m f, pySplit (trimSpaces s.data) = [num, unit] →
      multOf (unit.map upperC) = some m →
      pyFloatOfStr num = some f →
      (f = PyFloat.pinf ∨ f = PyFloat.ninf ∨ f = PyFloat.nan) →
      parse_size s = none) ∧
    (∀ num unit m f, pySplit (trimSpaces s.data) = [num, unit] →
      multOf (unit.map upperC) = some m →
      pyFloatOfStr num = some (PyFloat.finite f) →
      (2 : ℚ) ^ 1024 ≤ |f.val * (m : ℚ)| →
      parse_size s = none) := by
  refine ⟨?_, ?_, ?_, ?_, ?_, ?_⟩
  · intro toks htoks hlen
    unfold parse_size
    rw [htoks]
    rcases toks with _ | ⟨a, _ | ⟨b, _ | ⟨c, rest⟩⟩⟩ <;>
      first | rfl | (exfalso; exact hlen rfl)
  · intro num unit hsplit hmult
    unfold parse_size
    rw [hsplit]
    dsimp only
    rw [hmult]
  · intro num unit m hsplit hmult hfl
    unfold parse_size
    rw [hsplit]
    dsimp only
    rw [hmult]
    dsimp only
    rw [hfl]
  · intro num unit m q f hsplit hmult htok hrd hlt
    have hden : 0 < f.den := roundDouble_den_pos q f hrd
    obtain ⟨hmul, hval⟩ := pyFloatMulNat_finite f m hden hlt
    unfold parse_size
    rw [hsplit]
    dsimp only
    rw [hmult]
    dsimp only
    rw [pyFloatOfStr_of_tokVal num q htok, hrd]
    dsimp only
    rw [hmul, truncToInt_finite _ (mkFrac_den_pos _ _ hden), hval]
  · intro num unit m f hsplit hmult hfl hnf
    unfold parse_size
    rw [hsplit]
    dsimp only
    rw [hmult]
    dsimp only
    rw [hfl]
    rcases hnf with rfl | rfl | rfl <;> rfl
  · intro num unit m f hsplit hmult hfl hge
    unfold parse_size
    rw [hsplit]
    dsimp only
    rw [hmult]
    dsimp only
    rw [hfl]
    exact pyFloatMulNat_overflow f m (pyFloatOfStr_finite_den_pos num f hfl) hge

theorem C3_parse_size_witness :
    parse_size "1.5 GB" = some 1610612736 ∧
    parse_size "2 MB" = some 2097152 ∧
    parse_size "5 XB" = none ∧
    parse_size "1e400 KB" = none ∧
    parse_size "9e300 TB" = none := by
  refine ⟨?_, ?_, ?_, ?_, ?_⟩
  · have h := (C3_parse_size "1.5 GB").2.2.2.1 ['1', '.', '5'] ['G', 'B']
      1073741824 ⟨3, 2⟩ ⟨3, 2⟩ (by decide) (by decide) (by decide) (by decide)
      (by norm_num [Frac.val])
    rw [h, if_pos (by norm_num [Frac.val])]
    rw [show (Frac.mk 3 2).val * ((1073741824 : ℕ) : ℚ) =
      ((1610612736 : ℤ) : ℚ) by norm_num [Frac.val]]
    rw [Int.floor_intCast]
  · have h := (C3_parse_size "2 MB").2.2.2.1 ['2'] ['M', 'B']
      1048576 ⟨2, 1⟩ ⟨2, 1⟩ (by decide) (by decide) (by decide) (by decide)
      (by norm_num [Frac.val])
    rw [h, if_pos (by norm_num [Frac.val])]
    rw [show (Frac.mk 2 1).val * ((1048576 : ℕ) : ℚ) =
      ((2097152 : ℤ) : ℚ) by norm_num [Frac.val]]
    rw [Int.floor_intCast]
  · exact (C3_parse_size "5 XB").2.1 ['5'] ['X', 'B'] (by decide) (by decide)
  · exact (C3_parse_size "1e400 KB").2.2.2.2.1 ['1', 'e', '4', '0', '0']
      ['K', 'B'] 1024 PyFloat.pinf (by decide) (by decide) (by decide)
      (Or.inl rfl)
  · exact (C3_parse_size "9e300 TB").2.2.2.2.2 ['9', 'e', '3', '0', '0']
      ['T', 'B'] 1099511627776 ⟨((7565482232153167 * 2 ^ 947 : ℕ) : ℤ), 1⟩
      (by decide) (by decide) (by decide) (by norm_num [Frac.val])

/-- C3 counterexample: `parse_size "0.00097656249999999999999999999 KB"`
returns `1` — the decimal rounds up to the binary64 value `2^-10`,
exactly one KiB — while the number itself multiplied by `2^10` and
truncated to an integer is `0`: the claim as stated ignores the
float rounding the code performs. -/
theorem C3_counterexample :
    parse_size "0.00097656249999999999999999999 KB" = some 1 ∧
    floatTokVal ("0.00097656249999999999999999999").data =
      some ⟨97656249999999999999999999, 10 ^ 29⟩ ∧
    ⌊(Frac.mk 97656249999999999999999999 (10 ^ 29)).val * 2 ^ 10⌋ = 0 ∧
    (1 : ℤ) ≠ 0 := by
  refine ⟨by decide, by decide, ?_, by decide⟩
  rw [Int.floor_eq_zero_iff]
  constructor
  · have : (0:ℚ) ≤ (Frac.mk 97656249999999999999999999 (10 ^ 29)).val := by
      unfold Frac.val
      positivity
    positivity
  · show (Frac.mk 97656249999999999999999999 (10 ^ 29)).val * 2 ^ 10 < 1
    unfold Frac.val
    rw [div_mul_eq_mul_div, div_lt_one (by positivity)]
    norm_num

/-- `re.search`: try the pattern matcher at every start position, from
left to right; the matcher also receives the character preceding its
start position (needed for `\b`). -/
def searchFrom {α : Type} (f : Option Char → List Char → Option α) :
    Option Char → List Char → Option α
  | prev, [] => f prev []
  | prev, c :: cs =>
    match f prev (c :: cs) with
    | some v => some v
    | none => searchFrom f (some c) cs

/-- A lazy `.*?` gap: try the continuation at the current position, then
advance one character at a time; `.` does not match a newline, so the
gap cannot grow past one. -/
def lazyFind {α : Type} (f : List Char → Option α) : List Char → Option α
  | [] => f []
  | c :: cs =>
    match f (c :: cs) with
    | some v => some v
    | none => if c = '\n' then none else lazyFind f cs

/-- Greedy `(\d{1,3})%`: succeeds iff the digit run at the head has
length 1–3 and is followed by `%` (on a longer run every 1–3-digit
take leaves a digit, not `%`, after it, so all backtracks fail);
captures the run. -/
def pct13 (l : List Char) : Option (List Char) :=
  let ds := l.takeWhile pyDigit
  if 1 ≤ ds.length ∧ ds.length ≤ 3 ∧ (l.dropWhile pyDigit).head? = some '%' then
    some ds
  else none

/-- `BOTTLE = Bottleneck:\s*Network:\s*(?P<pct>\d{1,3})%` (re.I) at one
position. Each `\s*` is deterministic: it is greedy, and giving back a
space would place a space where a non-space literal must match. -/
def bottleAt (l : List Char) : Option (List Char) :=
  match stripCI ['b', 'o', 't', 't', 'l', 'e', 'n', 'e', 'c', 'k', ':'] l with
  | none => none
  | some r1 =>
    match stripCI ['n', 'e', 't', 'w', 'o', 'r', 'k', ':'] (r1.dropWhile pySpace) with
    | none => none
    | some r2 => pct13 (r2.dropWhile pySpace)

/-- `BOTTLE.search`. -/
def bottleSearch (l : List Char) : Option (List Char) :=
  searchFrom (fun _ t => bottleAt t) none l

/-- `[:=]?\s*(?P<hit>\d{1,3})%` after `hit`/`cache hit` in `WAN`. -/
def wanTail (l : List Char) : Option (List Char) :=
  let r1 := if l.head? = some ':' ∨ l.head? = some '=' then l.tail else l
  pct13 (r1.dropWhile pySpace)

/-- `(?:hit|cache hit)[:=]?...` at one gap position (`hit` first, as in
the pattern's alternation order). -/
def wanHitAt (l : List Char) : Option (List Char) :=
  match stripCI ['h', 'i', 't'] l with
  | some r =>
    match wanTail r with
    | some v => some v
    | none =>
      match stripCI ['c', 'a', 'c', 'h', 'e', ' ', 'h', 'i', 't'] l with
      | some r2 => wanTail r2
      | none => none
  | none =>
    match stripCI ['c', 'a', 'c', 'h', 'e', ' ', 'h', 'i', 't'] l with
    | some r2 => wanTail r2
    | none => none

/-- `WAN = WAN Accelerator.*?(?:hit|cache hit)[:=]?\s*(?P<hit>\d{1,3})%`
(re.I) at one position. -/
def wanAt (l : List Char) : Option (List Char) :=
  match stripCI ['w', 'a', 'n', ' ', 'a', 'c', 'c', 'e', 'l', 'e', 'r',
      'a', 't', 'o', 'r'] l with
  | none => none
  | some r => lazyFind wanHitAt r

/-- `WAN.search`. -/
def wanSearch (l : List Char) : Option (List Char) :=
  searchFrom (fun _ t => wanAt t) none l

/-- `\s*[:=]?\s*(?P<retries>\d+)\b` after the `retry`/`retries` word.
Deterministic by the same greedy argument; the trailing `\b` holds iff
the character after the full digit run is not a word character (inside
the run every position is digit–digit, so no shorter take helps). -/
def retryTail (l : List Char) : Option (List Char) :=
  let r1 := l.dropWhile pySpace
  let r2 := if r1.head? = some ':' ∨ r1.head? = some '=' then r1.tail else r1
  let r3 := r2.dropWhile pySpace
  let ds := r3.takeWhile pyDigit
  if ds ≠ [] ∧ ¬ ((r3.dropWhile pyDigit).head?.any pyWord) then some ds else none

/-- `RETRY = \b(?:retry|retries)\s*[:=]?\s*(?P<retries>\d+)\b` (re.I) at
one position: the leading `\b` holds iff the preceding character is not
a word character (the first pattern character is a word letter); the
alternation tries `retry` first, then `retries`. -/
def retryAt (prev : Option Char) (l : List Char) : Option (List Char) :=
  if prev.any pyWord then none
  else
    match stripCI ['r', 'e', 't', 'r', 'y'] l with
    | some r =>
      match retryTail r with
      | some v => some v
      | none =>
        match stripCI ['r', 'e', 't', 'r', 'i', 'e', 's'] l with
        | some r2 => retryTail r2
        | none => none
    | none =>
      match stripCI ['r', 'e', 't', 'r', 'i', 'e', 's'] l with
      | some r2 => retryTail r2
      | none => none

/-- `RETRY.search`. -/
def retrySearch (l : List Char) : Option (List Char) :=
  searchFrom retryAt none l

/-- The three captures of the `XFER` pattern. -/
structure XferCap where
  bytes : List Char
  dur : List Char
  spd : List Char
deriving DecidableEq, Repr

/-- The `[\d.]` class. -/
def digitDot (c : Char) : Bool := pyDigit c || c = '.'

/-- The size units of the `bytes` capture: `KB|MB|GB|TB` (lower case). -/
def sizeUnits : List (List Char) := [['k', 'b'], ['m', 'b'], ['g', 'b'], ['t', 'b']]

/-- The size units of the `spd` capture: `KB|MB|GB` (lower case). -/
def speedUnits : List (List Char) := [['k', 'b'], ['m', 'b'], ['g', 'b']]

/-- `(?P<cap>[\d.]+\s*(?:U1|U2|...))` with two-letter units `us`
(lower case): greedy and deterministic, since shortening the `[\d.]+`
run or the `\s*` run leaves a digit, dot or space where a unit letter
must stand; returns (capture, rest). -/
def sizeTokAt (us : List (List Char)) (l : List Char) :
    Option (List Char × List Char) :=
  let ds := l.takeWhile digitDot
  let r1 := l.dropWhile digitDot
  let sp := r1.takeWhile pySpace
  let r2 := r1.dropWhile pySpace
  if ds = [] then none
  else
    match r2 with
    | u1 :: u2 :: rest =>
      if [lowerC u1, lowerC u2] ∈ us then some (ds ++ sp ++ [u1, u2], rest)
      else none
    | _ => none

/-- `(?P<dur>\d{2}:\d{2}:\d{2})`: exactly two digits per component. -/
def durTokAt (l : List Char) : Option (List Char × List Char) :=
  match l with
  | d1 :: d2 :: c1 :: d3 :: d4 :: c2 :: d5 :: d6 :: rest =>
    if pyDigit d1 ∧ pyDigit d2 ∧ c1 = ':' ∧ pyDigit d3 ∧ pyDigit d4 ∧
        c2 = ':' ∧ pyDigit d5 ∧ pyDigit d6 then
      some ([d1, d2, c1, d3, d4, c2, d5, d6], rest)
    else none
  | _ => none

/-- `(?P<spd>[\d.]+\s*(?:KB|MB|GB)/s)`. -/
def spdTokAt (l : List Char) : Option (List Char × List Char) :=
  match sizeTokAt speedUnits l with
  | none => none
  | some (cap, rest) =>
    match rest with
    | c1 :: c2 :: r =>
      if c1 = '/' ∧ lowerC c2 = 's' then some (cap ++ [c1, c2], r) else none
    | _ => none

/-- `Avg speed:\s*(?P<spd>...)` at one gap position. -/
def spdPartAt (l : List Char) : Option (List Char) :=
  match stripCI ['a', 'v', 'g', ' ', 's', 'p', 'e', 'e', 'd', ':'] l with
  | none => none
  | some r =>
    match spdTokAt (r.dropWhile pySpace) with
    | none => none
    | some (spd, _) => some spd

/-- `Duration:\s*(?P<dur>...)` then lazily `.*?Avg speed:...` at one gap
position; a failed speed search backtracks to the next `Duration:`
candidate in the enclosing `lazyFind`, matching the backtracking order
of the lazy quantifiers. -/
def durPartAt (l : List Char) : Option (List Char × List Char) :=
  match stripCI ['d', 'u', 'r', 'a', 't', 'i', 'o', 'n', ':'] l with
  | none => none
  | some r =>
    match durTokAt (r.dropWhile pySpace) with
    | none => none
    | some (dur, rest) =>
      match lazyFind spdPartAt rest with
      | none => none
      | some spd => some (dur, spd)

/-- `XFER` at one position:
`Transfer(?:red)?:\s*(?P<bytes>[\d.]+\s*(?:KB|MB|GB|TB))` then
`.*?Duration:\s*(?P<dur>\d{2}:\d{2}:\d{2})` then
`.*?Avg speed:\s*(?P<spd>[\d.]+\s*(?:KB|MB|GB)/s)` (re.I). The greedy
`(?:red)?` tries `red:` before `:`. -/
def xferAt (l : List Char) : Option XferCap :=
  match stripCI ['t', 'r', 'a', 'n', 's', 'f', 'e', 'r'] l with
  | none => none
  | some r1 =>
    match
      (match stripCI ['r', 'e', 'd', ':'] r1 with
       | some r => some r
       | none => stripCI [':'] r1) with
    | none => none
    | some r2 =>
      match sizeTokAt sizeUnits (r2.dropWhile pySpace) with
      | none => none
      | some (bytes, rest) =>
        match lazyFind durPartAt rest with
        | none => none
        | some (dur, spd) => some ⟨bytes, dur, spd⟩

/-- `XFER.search`. -/
def xferSearch (l : List Char) : Option XferCap :=
  searchFrom (fun _ t => xferAt t) none l

/-- One event record (the `row` dictionary of `parse_events`). -/
structure Row where
  event_time : Option String
  bytes_sent : Option ℤ
  duration_s : Option ℤ
  network_bottleneck_pct : Option ℤ
  wan_cache_hit_pct : Option ℤ
  retries : Option ℤ
  message : String
deriving DecidableEq, Repr

/-- One iteration of the `parse_events` loop: the row built for one raw
line, or `none` when no extractor matched (`hit` stays false and the
row is discarded). The `int(...)` on the `pct`/`hit`/`retries` captures
is their decimal value (the captures are nonempty ASCII digit runs);
`parse_dur` on the `dur` capture always succeeds (shape `\d\d:\d\d:\d\d`),
so binding its `Option` through the field loses nothing. -/
def lineRecord (raw : String) : Option Row :=
  let tm := parse_ts_prefix raw
  let mb := bottleSearch tm.2.data
  let mx := xferSearch tm.2.data
  let mw := wanSearch tm.2.data
  let mr := retrySearch tm.2.data
  if mb.isSome || mx.isSome || mw.isSome || mr.isSome then
    some
      { event_time := tm.1
        bytes_sent := mx.bind (fun c => parse_size ⟨c.bytes⟩)
        duration_s := mx.bind (fun c => parse_dur ⟨c.dur⟩)
        network_bottleneck_pct := mb.map (fun d => (digitsVal d : ℤ))
        wan_cache_hit_pct := mw.map (fun d => (digitsVal d : ℤ))
        retries := mr.map (fun d => (digitsVal d : ℤ))
        message := tm.2 }
  else none

/-- The `parse_events` loop with its `out` accumulator. -/
def parseEventsAux : List String → List Row → List Row
  | [], out => out
  | raw :: rest, out =>
    match lineRecord raw with
    | some row => parseEventsAux rest (out ++ [row])
    | none => parseEventsAux rest out

/-- `parse_events`: one ordered pass over the input lines. -/
def parse_events (lines : List String) : List Row := parseEventsAux lines []

theorem parseEventsAux_eq (lines : List String) (out : List Row) :
    parseEventsAux lines out = out ++ lines.filterMap lineRecord := by
  induction lines generalizing out with
  | nil => simp [parseEventsAux]
  | cons raw rest ih =>
    unfold parseEventsAux
    cases h : lineRecord raw with
    | some row =>
      show parseEventsAux rest (out ++ [row]) = _
      rw [ih, List.filterMap_cons, h]
      simp
    | none =>
      show parseEventsAux rest out = _
      rw [ih, List.filterMap_cons, h]

theorem lineRecord_isSome (raw : String) :
    (lineRecord raw).isSome =
      ((bottleSearch ( parse_ts_prefix raw).2.data).isSome ||
       (xferSearch ( parse_ts_prefix raw).2.data).isSome ||
       (wanSearch ( parse_ts_prefix raw).2.data).isSome ||
       (retrySearch ( parse_ts_prefix raw).2.data).isSome) := by
  unfold lineRecord
  dsimp only
  split
  · rename_i h
    exact Option.isSome_some.trans h.symm
  · rename_i h
    rw [Bool.not_eq_true] at h
    rw [h]
    rfl

theorem lineRecord_message (raw : String) (row : Row)
    (h : lineRecord raw = some row) : row.message = ( parse_ts_prefix raw).2 := by
  unfold lineRecord at h
  dsimp only at h
  split at h
  · injection h with h
    subst h
    rfl
  · cases h

/-- C1: `parse_events` is an ordered filter-map over the input lines —
a record is emitted for a line exactly when at least one of the four
extractors matches the timestamp-stripped message, the record's
`message` field is that stripped message, and records appear in input
order (`List.filterMap` keeps the order of its input). -/
theorem C1_parse_events_shape (lines : List String) :
    parse_events lines = lines.filterMap lineRecord ∧
    (∀ raw : String, (lineRecord raw).isSome ↔
      ((bottleSearch ( parse_ts_prefix raw).2.data).isSome ∨
       (xferSearch ( parse_ts_prefix raw).2.data).isSome ∨
       (wanSearch ( parse_ts_prefix raw).2.data).isSome ∨
       (retrySearch ( parse_ts_prefix raw).2.data).isSome)) ∧
    (∀ raw row, lineRecord raw = some row →
      row.message = ( parse_ts_prefix raw).2) := by
  refine ⟨by simpa using parseEventsAux_eq lines [], ?_, lineRecord_message⟩
  intro raw
  simp [lineRecord_isSome raw, Bool.or_eq_true, or_assoc]

/-- C7: a line whose message carries both a retry token and a
bottleneck token yields exactly one record carrying both values — the
extractors' contributions are additive. -/
theorem C7_retry_and_bottleneck (line : String) (r b : List Char)
    (hr : retrySearch ( parse_ts_prefix line).2.data = some r)
    (hb : bottleSearch ( parse_ts_prefix line).2.data = some b) :
    ∃ row, parse_events [line] = [row] ∧
      row.retries = some (digitsVal r) ∧
      row.network_bottleneck_pct = some (digitsVal b) := by
  have hlr : lineRecord line = some
      { event_time := ( parse_ts_prefix line).1
        bytes_sent := (xferSearch ( parse_ts_prefix line).2.data).bind
          (fun c => parse_size ⟨c.bytes⟩)
        duration_s := (xferSearch ( parse_ts_prefix line).2.data).bind
          (fun c => parse_dur ⟨c.dur⟩)
        network_bottleneck_pct := some (digitsVal b)
        wan_cache_hit_pct := (wanSearch ( parse_ts_prefix line).2.data).map
          (fun d => (digitsVal d : ℤ))
        retries := some (digitsVal r)
        message := ( parse_ts_prefix line).2 } := by
    unfold lineRecord
    dsimp only
    rw [hb, hr]
    simp
  obtain ⟨row, hrow, hf1, hf2⟩ : ∃ row, lineRecord line = some row ∧
      row.retries = some (digitsVal r) ∧
      row.network_bottleneck_pct = some (digitsVal b) := ⟨_, hlr, rfl, rfl⟩
  refine ⟨row, ?_, hf1, hf2⟩
  simp [parse_events, parseEventsAux, hrow]

theorem C7_retry_and_bottleneck_witness :
    ∃ row, parse_events ["Bottleneck: Network: 42% retries: 3"] = [row] ∧
      row.retries = some (digitsVal ['3']) ∧
      row.network_bottleneck_pct = some (digitsVal ['4', '2']) :=
  C7_retry_and_bottleneck "Bottleneck: Network: 42% retries: 3" ['3']
    ['4', '2'] (by decide) (by decide)

/-- C9: a line exists on which the Transfer extractor matches with no
whitespace between value and unit (`"1.5GB"`), so the record is emitted
with `duration_s` set, yet `bytes_sent` is null because `parse_size`
needs two whitespace-separated tokens. -/
theorem C9_zero_space_size :
    parse_events ["Transfer: 1.5GB Duration: 00:10:00 Avg speed: 2 MB/s"] =
      [{ event_time := none, bytes_sent := none, duration_s := some 600,
         network_bottleneck_pct := none, wan_cache_hit_pct := none,
         retries := none,
         message := "Transfer: 1.5GB Duration: 00:10:00 Avg speed: 2 MB/s" }] ∧
    (xferSearch ("Transfer: 1.5GB Duration: 00:10:00 Avg speed: 2 MB/s").data).isSome
      = true ∧
    parse_size "1.5GB" = none := by
  refine ⟨by decide, by decide, by decide⟩

/-- The character before position `n` (`none` at position 0 with no
left context). -/
def prevAt (prev : Option Char) (l : List Char) : ℕ → Option Char
  | 0 => prev
  | n + 1 => l.get? n

theorem prevAt_cons (prev : Option Char) (c : Char) (cs : List Char) (k : ℕ) :
    prevAt prev (c :: cs) (k + 1) = prevAt (some c) cs k := by
  cases k <;> rfl

theorem searchFrom_eq_some_iff {α : Type} (f : Option Char → List Char → Option α)
    (prev : Option Char) (l : List Char) (v : α) :
    searchFrom f prev l = some v ↔
      ∃ n, n ≤ l.length ∧ f (prevAt prev l n) (l.drop n) = some v ∧
        ∀ m, m < n → f (prevAt prev l m) (l.drop m) = none := by
  induction l generalizing prev with
  | nil =>
    unfold searchFrom
    constructor
    · intro h
      exact ⟨0, by simp, by simpa using h, by omega⟩
    · rintro ⟨n, hn, hf, _⟩
      have hz : n = 0 := by simpa using hn
      subst hz
      simpa using hf
  | cons c cs ih =>
    unfold searchFrom
    cases h0 : f prev (c :: cs) with
    | some w =>
      constructor
      · intro h
        injection h with h
        subst h
        exact ⟨0, by simp, h0, by omega⟩
      · rintro ⟨n, hn, hf, hmin⟩
        cases n with
        | zero =>
          rw [show prevAt prev (c :: cs) 0 = prev from rfl,
            show (c :: cs).drop 0 = c :: cs from rfl] at hf
          rw [h0] at hf
          exact hf
        | succ m =>
          have h00 := hmin 0 (by omega)
          rw [show prevAt prev (c :: cs) 0 = prev from rfl,
            show (c :: cs).drop 0 = c :: cs from rfl] at h00
          rw [h0] at h00
          cases h00
    | none =>
      rw [ih (some c)]
      constructor
      · rintro ⟨n, hn, hf, hmin⟩
        refine ⟨n + 1, by simpa using Nat.succ_le_succ hn, ?_, ?_⟩
        · rw [prevAt_cons, show (c :: cs).drop (n + 1) = cs.drop n from rfl]
          exact hf
        · intro m hm
          cases m with
          | zero => exact h0
          | succ k =>
            rw [prevAt_cons, show (c :: cs).drop (k + 1) = cs.drop k from rfl]
            exact hmin k (by omega)
      · rintro ⟨n, hn, hf, hmin⟩
        cases n with
        | zero =>
          rw [show prevAt prev (c :: cs) 0 = prev from rfl,
            show (c :: cs).drop 0 = c :: cs from rfl] at hf
          rw [h0] at hf
          cases hf
        | succ k =>
          refine ⟨k, by simpa using hn, ?_, ?_⟩
          · rw [prevAt_cons, show (c :: cs).drop (k + 1) = cs.drop k from rfl] at hf
            exact hf
          · intro m hm
            have := hmin (m + 1) (by omega)
            rw [prevAt_cons, show (c :: cs).drop (m + 1) = cs.drop m from rfl] at this
            exact this

/-- C10: each of the four searches returns the value matched at the
leftmost position at which its pattern matches; all later occurrences
are ignored. -/
theorem C10_leftmost_match :
    (∀ (msg : List Char) v, bottleSearch msg = some v ↔
      ∃ n, n ≤ msg.length ∧ bottleAt (msg.drop n) = some v ∧
        ∀ m, m < n → bottleAt (msg.drop m) = none) ∧
    (∀ (msg : List Char) v, xferSearch msg = some v ↔
      ∃ n, n ≤ msg.length ∧ xferAt (msg.drop n) = some v ∧
        ∀ m, m < n → xferAt (msg.drop m) = none) ∧
    (∀ (msg : List Char) v, wanSearch msg = some v ↔
      ∃ n, n ≤ msg.length ∧ wanAt (msg.drop n) = some v ∧
        ∀ m, m < n → wanAt (msg.drop m) = none) ∧
    (∀ (msg : List Char) v, retrySearch msg = some v ↔
      ∃ n, n ≤ msg.length ∧ retryAt (prevAt none msg n) (msg.drop n) = some v ∧
        ∀ m, m < n → retryAt (prevAt none msg m) (msg.drop m) = none) :=
  ⟨fun msg v => searchFrom_eq_some_iff (fun _ t => bottleAt t) none msg v,
   fun msg v => searchFrom_eq_some_iff (fun _ t => xferAt t) none msg v,
   fun msg v => searchFrom_eq_some_iff (fun _ t => wanAt t) none msg v,
   fun msg v => searchFrom_eq_some_iff retryAt none msg v⟩

/-- The shape of a size capture `[\d.]+\s*UNIT` over units `us`. -/
def IsSizeCap (us : List (List Char)) (cap : List Char) : Prop :=
  ∃ ds sp u1 u2, cap = ds ++ sp ++ [u1, u2] ∧ ds ≠ [] ∧
    (∀ x ∈ ds, digitDot x) ∧ (∀ x ∈ sp, pySpace x) ∧ [lowerC u1, lowerC u2] ∈ us

/-- A `Transfer:`/`Transferred:` label followed by a size capture. -/
def IsXferHeadTok (t cap : List Char) : Prop :=
  ∃ w sp, t = w ++ sp ++ cap ∧
    (w.map lowerC = ("transfer:").data ∨ w.map lowerC = ("transferred:").data) ∧
    (∀ x ∈ sp, pySpace x) ∧ IsSizeCap sizeUnits cap

/-- The shape of a duration capture `\d{2}:\d{2}:\d{2}`. -/
def IsDurCap (cap : List Char) : Prop :=
  ∃ d1 d2 d3 d4 d5 d6, cap = [d1, d2, ':', d3, d4, ':', d5, d6] ∧
    pyDigit d1 ∧ pyDigit d2 ∧ pyDigit d3 ∧ pyDigit d4 ∧ pyDigit d5 ∧ pyDigit d6

/-- A `Duration:` label followed by a duration capture. -/
def IsDurTok (t cap : List Char) : Prop :=
  ∃ w sp, t = w ++ sp ++ cap ∧ w.map lowerC = ("duration:").data ∧
    (∀ x ∈ sp, pySpace x) ∧ IsDurCap cap

/-- The shape of a speed capture `[\d.]+\s*(?:KB|MB|GB)/s`. -/
def IsSpdCap (cap : List Char) : Prop :=
  ∃ core sl s2, cap = core ++ [sl, s2] ∧ IsSizeCap speedUnits core ∧
    sl = '/' ∧ lowerC s2 = 's'

/-- An `Avg speed:` label followed by a speed capture. -/
def IsSpdTok (t cap : List Char) : Prop :=
  ∃ w sp, t = w ++ sp ++ cap ∧ w.map lowerC = ("avg speed:").data ∧
    (∀ x ∈ sp, pySpace x) ∧ IsSpdCap cap

theorem stripCI_sound (p : List Char) : ∀ l r, stripCI p l = some r →
    ∃ t, l = t ++ r ∧ t.map lowerC = p := by
  induction p with
  | nil =>
    intro l r h
    injection h with h
    exact ⟨[], by rw [h]; rfl, rfl⟩
  | cons pc ps ih =>
    intro l r h
    cases l with
    | nil => cases h
    | cons c cs =>
      unfold stripCI at h
      split at h
      · rename_i hc
        obtain ⟨t, ht, hm⟩ := ih cs r h
        exact ⟨c :: t, by rw [ht]; rfl, by simp [hm, hc]⟩
      · cases h

theorem lazyFind_sound {α : Type} (f : List Char → Option α) :
    ∀ l v, lazyFind f l = some v → ∃ g r, l = g ++ r ∧ f r = some v := by
  intro l
  induction l with
  | nil =>
    intro v h
    exact ⟨[], [], rfl, by simpa [lazyFind] using h⟩
  | cons c cs ih =>
    intro v h
    unfold lazyFind at h
    cases h0 : f (c :: cs) with
    | some w =>
      simp only [h0] at h
      have hv : w = v := by simpa using h
      subst hv
      exact ⟨[], c :: cs, rfl, h0⟩
    | none =>
      simp only [h0] at h
      split at h
      · cases h
      · obtain ⟨g, r, hgr, hf⟩ := ih v h
        exact ⟨c :: g, r, by rw [hgr]; rfl, hf⟩

theorem sizeTokAt_sound (us : List (List Char)) (l cap rest : List Char)
    (h : sizeTokAt us l = some (cap, rest)) :
    l = cap ++ rest ∧ IsSizeCap us cap := by
  unfold sizeTokAt at h
  dsimp only at h
  by_cases hds : l.takeWhile digitDot = []
  · rw [if_pos hds] at h
    cases h
  · rw [if_neg hds] at h
    rcases hr2 : (l.dropWhile digitDot).dropWhile pySpace with _ | ⟨u1, r2'⟩
    · simp only [hr2] at h
      cases h
    · rcases r2' with _ | ⟨u2, rest'⟩
      · simp only [hr2] at h
        cases h
      · simp only [hr2] at h
        by_cases hu : [lowerC u1, lowerC u2] ∈ us
        · rw [if_pos hu] at h
          injection h with h
          rw [Prod.mk.injEq] at h
          obtain ⟨hcap, hrest⟩ := h
          subst hcap
          subst hrest
          constructor
          · conv_lhs => rw [← List.takeWhile_append_dropWhile (p := digitDot) (l := l)]
            conv_lhs =>
              rw [← List.takeWhile_append_dropWhile (p := pySpace)
                (l := l.dropWhile digitDot), hr2]
            simp
          · refine ⟨l.takeWhile digitDot,
              (l.dropWhile digitDot).takeWhile pySpace, u1, u2, by simp, hds,
              fun x hx => List.mem_takeWhile_imp hx,
              fun x hx => List.mem_takeWhile_imp hx, hu⟩
        · rw [if_neg hu] at h
          cases h

theorem durTokAt_sound (l cap rest : List Char)
    (h : durTokAt l = some (cap, rest)) :
    l = cap ++ rest ∧ IsDurCap cap := by
  unfold durTokAt at h
  split at h
  · rename_i d1 d2 c1 d3 d4 c2 d5 d6 rest'
    split at h
    · rename_i hcond
      obtain ⟨h1, h2, h3, h4, h5, h6, h7, h8⟩ := hcond
      injection h with h
      rw [Prod.mk.injEq] at h
      obtain ⟨hcap, hrest⟩ := h
      subst hcap
      subst hrest
      subst h3
      subst h6
      exact ⟨rfl, d1, d2, d3, d4, d5, d6, rfl, h1, h2, h4, h5, h7, h8⟩
    · cases h
  · cases h

theorem spdTokAt_sound (l cap rest : List Char)
    (h : spdTokAt l = some (cap, rest)) :
    l = cap ++ rest ∧ IsSpdCap cap := by
  unfold spdTokAt at h
  rcases hsz : sizeTokAt speedUnits l with _ | ⟨core, rest1⟩
  · rw [hsz] at h
    cases h
  · simp only [hsz] at h
    rcases rest1 with _ | ⟨c1, _ | ⟨c2, r⟩⟩
    · cases h
    · cases h
    · change (if c1 = '/' ∧ lowerC c2 = 's' then some (core ++ [c1, c2], r)
        else none) = some (cap, rest) at h
      by_cases hcs : c1 = '/' ∧ lowerC c2 = 's'
      · rw [if_pos hcs] at h
        obtain ⟨hsl, hs2⟩ := hcs
        injection h with h
        rw [Prod.mk.injEq] at h
        obtain ⟨hcap, hrest⟩ := h
        subst hcap
        subst hrest
        obtain ⟨hl, hcore⟩ := sizeTokAt_sound speedUnits l core (c1 :: c2 :: r) hsz
        constructor
        · rw [hl]
          simp
        · exact ⟨core, c1, c2, rfl, hcore, hsl, hs2⟩
      · rw [if_neg hcs] at h
        cases h

theorem spdPartAt_sound (l : List Char) (spd : List Char)
    (h : spdPartAt l = some spd) : ∃ t3 u3, l = t3 ++ u3 ∧ IsSpdTok t3 spd := by
  unfold spdPartAt at h
  rcases hst : stripCI ['a', 'v', 'g', ' ', 's', 'p', 'e', 'e', 'd', ':'] l
    with _ | r
  · rw [hst] at h
    cases h
  · simp only [hst] at h
    rcases hsp : spdTokAt (r.dropWhile pySpace) with _ | ⟨spd', rest'⟩
    · rw [hsp] at h
      cases h
    · simp only [hsp] at h
      have hv : spd' = spd := by simpa using h
      subst hv
      obtain ⟨w, hw, hmw⟩ := stripCI_sound _ l r hst
      obtain ⟨hr', hcap⟩ := spdTokAt_sound (r.dropWhile pySpace) spd' rest' hsp
      refine ⟨w ++ (r.takeWhile pySpace ++ spd'), rest', ?_, ?_⟩
      · rw [hw]
        conv_lhs => rw [show r = r.takeWhile pySpace ++ r.dropWhile pySpace from
          (List.takeWhile_append_dropWhile (p := pySpace) (l := r)).symm, hr']
        simp
      · refine ⟨w, r.takeWhile pySpace, by simp, by rw [hmw],
          fun x hx => List.mem_takeWhile_imp hx, hcap⟩

theorem durPartAt_sound (l : List Char) (dur spd : List Char)
    (h : durPartAt l = some (dur, spd)) :
    ∃ t2 g2 t3 u3, l = t2 ++ g2 ++ t3 ++ u3 ∧ IsDurTok t2 dur ∧
      IsSpdTok t3 spd := by
  unfold durPartAt at h
  rcases hst : stripCI ['d', 'u', 'r', 'a', 't', 'i', 'o', 'n', ':'] l
    with _ | r
  · rw [hst] at h
    cases h
  · simp only [hst] at h
    rcases hdt : durTokAt (r.dropWhile pySpace) with _ | ⟨dur', rest1⟩
    · rw [hdt] at h
      cases h
    · simp only [hdt] at h
      rcases hlf : lazyFind spdPartAt rest1 with _ | spd'
      · rw [hlf] at h
        cases h
      · simp only [hlf] at h
        injection h with h
        rw [Prod.mk.injEq] at h
        obtain ⟨hd, hs⟩ := h
        subst hd
        subst hs
        obtain ⟨w, hw, hmw⟩ := stripCI_sound _ l r hst
        obtain ⟨hr', hdc⟩ := durTokAt_sound (r.dropWhile pySpace) dur' rest1 hdt
        obtain ⟨g2, r7, hg2, hsp⟩ := lazyFind_sound spdPartAt rest1 spd' hlf
        obtain ⟨t3, u3, ht3, hspd⟩ := spdPartAt_sound r7 spd' hsp
        refine ⟨w ++ (r.takeWhile pySpace ++ dur'), g2, t3, u3, ?_, ?_, hspd⟩
        · rw [hw]
          conv_lhs => rw [show r = r.takeWhile pySpace ++ r.dropWhile pySpace from
            (List.takeWhile_append_dropWhile (p := pySpace) (l := r)).symm, hr',
            hg2, ht3]
          simp
        · refine ⟨w, r.takeWhile pySpace, by simp, by rw [hmw],
            fun x hx => List.mem_takeWhile_imp hx, hdc⟩

theorem xferAt_sound (l : List Char) (c : XferCap) (h : xferAt l = some c) :
    ∃ t1 g1 t2 g2 t3 u3, l = t1 ++ g1 ++ t2 ++ g2 ++ t3 ++ u3 ∧
      IsXferHeadTok t1 c.bytes ∧ IsDurTok t2 c.dur ∧ IsSpdTok t3 c.spd := by
  unfold xferAt at h
  rcases hst : stripCI ['t', 'r', 'a', 'n', 's', 'f', 'e', 'r'] l with _ | r1
  · rw [hst] at h
    cases h
  · simp only [hst] at h
    obtain ⟨w0, hw0, hmw0⟩ := stripCI_sound _ l r1 hst
    have hcolon : ∃ r2 w1, (match stripCI ['r', 'e', 'd', ':'] r1 with
        | some r => some r
        | none => stripCI [':'] r1) = some r2 ∧ r1 = w1 ++ r2 ∧
        (w1.map lowerC = ['r', 'e', 'd', ':'] ∨ w1.map lowerC = [':']) := by
      rcases hred : stripCI ['r', 'e', 'd', ':'] r1 with _ | r2
      · simp only [hred] at h ⊢
        rcases hc2 : stripCI [':'] r1 with _ | r2
        · rw [hc2] at h
          cases h
        · obtain ⟨w1, hw1, hmw1⟩ := stripCI_sound _ r1 r2 hc2
          exact ⟨r2, w1, rfl, hw1, Or.inr hmw1⟩
      · obtain ⟨w1, hw1, hmw1⟩ := stripCI_sound _ r1 r2 hred
        exact ⟨r2, w1, by simp [hred], hw1, Or.inl hmw1⟩
    obtain ⟨r2, w1, hr2eq, hw1, hmw1⟩ := hcolon
    rw [hr2eq] at h
    simp only [] at h
    rcases hsz : sizeTokAt sizeUnits (r2.dropWhile pySpace) with _ | ⟨bytes, rest⟩
    · rw [hsz] at h
      cases h
    · simp only [hsz] at h
      rcases hlf : lazyFind durPartAt rest with _ | ⟨dur, spd⟩
      · rw [hlf] at h
        cases h
      · simp only [hlf] at h
        have hc : c = ⟨bytes, dur, spd⟩ := by
          injection h with h
          exact h.symm
        subst hc
        obtain ⟨hr2', hbc⟩ := sizeTokAt_sound sizeUnits (r2.dropWhile pySpace)
          bytes rest hsz
        obtain ⟨g1, r4, hg1, hdp⟩ := lazyFind_sound durPartAt rest _ hlf
        obtain ⟨t2, g2, t3, u3, hr4, hdt, hspd⟩ := durPartAt_sound r4 dur spd hdp
        refine ⟨(w0 ++ w1) ++ (r2.takeWhile pySpace ++ bytes), g1, t2, g2, t3, u3,
          ?_, ?_, hdt, hspd⟩
        · rw [hw0, hw1]
          conv_lhs => rw [show r2 = r2.takeWhile pySpace ++ r2.dropWhile pySpace
            from (List.takeWhile_append_dropWhile (p := pySpace) (l := r2)).symm,
            hr2', hg1, hr4]
          simp
        · refine ⟨w0 ++ w1, r2.takeWhile pySpace, by simp, ?_,
            fun x hx => List.mem_takeWhile_imp hx, hbc⟩
          rcases hmw1 with h1 | h1
          · right
            rw [List.map_append, hmw0, h1]
            rfl
          · left
            rw [List.map_append, hmw0, h1]
            rfl

/-- C5: the Transfer extractor sets `bytes_sent` and `duration_s` only
when the message contains, in order with intervening text, a
`Transfer:`/`Transferred:` size token, a `Duration: HH:MM:SS` token and
an `Avg speed:` speed token; if it does not match, it sets neither
field; when it matches, the two fields are computed from the `bytes`
and `dur` captures alone — the matched speed value is not stored (the
record has no speed field and no field depends on the `spd` capture). -/
theorem C5_transfer_fields (raw : String) (row : Row)
    (hrow : lineRecord raw = some row) :
    (xferSearch ( parse_ts_prefix raw).2.data = none →
      row.bytes_sent = none ∧ row.duration_s = none) ∧
    (∀ c, xferSearch ( parse_ts_prefix raw).2.data = some c →
      row.bytes_sent = parse_size ⟨c.bytes⟩ ∧
      row.duration_s = parse_dur ⟨c.dur⟩ ∧
      (∃ dv, parse_dur ⟨c.dur⟩ = some dv) ∧
      (∃ u0 t1 g1 t2 g2 t3 u3,
        ( parse_ts_prefix raw).2.data =
          u0 ++ t1 ++ g1 ++ t2 ++ g2 ++ t3 ++ u3 ∧
        IsXferHeadTok t1 c.bytes ∧ IsDurTok t2 c.dur ∧ IsSpdTok t3 c.spd)) := by
  have hfields : row.bytes_sent = (xferSearch ( parse_ts_prefix raw).2.data).bind
      (fun c => parse_size ⟨c.bytes⟩) ∧
      row.duration_s = (xferSearch ( parse_ts_prefix raw).2.data).bind
        (fun c => parse_dur ⟨c.dur⟩) := by
    unfold lineRecord at hrow
    dsimp only at hrow
    split at hrow
    · injection hrow with hrow
      subst hrow
      exact ⟨rfl, rfl⟩
    · cases hrow
  obtain ⟨hbs, hds⟩ := hfields
  constructor
  · intro hx
    rw [hbs, hds, hx]
    exact ⟨rfl, rfl⟩
  · intro c hx
    obtain ⟨n, hn, hat, _⟩ := (searchFrom_eq_some_iff (fun _ t => xferAt t)
      none ( parse_ts_prefix raw).2.data c).mp hx
    obtain ⟨t1, g1, t2, g2, t3, u3, hdec, hhd, hdt, hspd⟩ :=
      xferAt_sound _ c hat
    have hdur : ∃ dv, parse_dur ⟨c.dur⟩ = some dv := by
      obtain ⟨w, sp, _, _, _, hdc⟩ := hdt
      obtain ⟨d1, d2, d3, d4, d5, d6, hcd, h1, h2, h3, h4, h5, h6⟩ := hdc
      rw [hcd]
      refine ⟨_, parse_dur_digits [d1, d2] [d3, d4] [d5, d6] (by simp) (by simp)
        (by simp) ?_ ?_ ?_⟩
      · intro x hx'
        have hor : x = d1 ∨ x = d2 := by simpa using hx'
        rcases hor with rfl | rfl
        · exact h1
        · exact h2
      · intro x hx'
        have hor : x = d3 ∨ x = d4 := by simpa using hx'
        rcases hor with rfl | rfl
        · exact h3
        · exact h4
      · intro x hx'
        have hor : x = d5 ∨ x = d6 := by simpa using hx'
        rcases hor with rfl | rfl
        · exact h5
        · exact h6
    refine ⟨by rw [hbs, hx]; rfl, by rw [hds, hx]; rfl, hdur,
      ( parse_ts_prefix raw).2.data.take n, t1, g1, t2, g2, t3, u3, ?_, hhd,
      hdt, hspd⟩
    conv_lhs => rw [← List.take_append_drop n ( parse_ts_prefix raw).2.data, hdec]
    simp [List.append_assoc]

theorem C5_transfer_fields_witness :
    ∃ u0 t1 g1 t2 g2 t3 u3,
      ( parse_ts_prefix
          "Transfer: 1 KB Duration: 01:02:03 Avg speed: 2 MB/s").2.data =
        u0 ++ t1 ++ g1 ++ t2 ++ g2 ++ t3 ++ u3 ∧
      IsXferHeadTok t1 (XferCap.mk ['1', ' ', 'K', 'B']
        ['0', '1', ':', '0', '2', ':', '0', '3']
        ['2', ' ', 'M', 'B', '/', 's']).bytes ∧
      IsDurTok t2 (XferCap.mk ['1', ' ', 'K', 'B']
        ['0', '1', ':', '0', '2', ':', '0', '3']
        ['2', ' ', 'M', 'B', '/', 's']).dur ∧
      IsSpdTok t3 (XferCap.mk ['1', ' ', 'K', 'B']
        ['0', '1', ':', '0', '2', ':', '0', '3']
        ['2', ' ', 'M', 'B', '/', 's']).spd := by
  have h := (C5_transfer_fields
    "Transfer: 1 KB Duration: 01:02:03 Avg speed: 2 MB/s"
    { event_time := none, bytes_sent := some 1024, duration_s := some 3723,
      network_bottleneck_pct := none, wan_cache_hit_pct := none,
      retries := none,
      message := "Transfer: 1 KB Duration: 01:02:03 Avg speed: 2 MB/s" }
    (by decide)).2
    (XferCap.mk ['1', ' ', 'K', 'B'] ['0', '1', ':', '0', '2', ':', '0', '3']
      ['2', ' ', 'M', 'B', '/', 's']) (by decide)
  exact h.2.2.2

/-- The match test of validate mode:
`any([BOTTLE.search(msg), XFER.search(msg), WAN.search(msg), RETRY.search(msg)])`
on the timestamp-stripped message. -/
def anyMatchLine (line : String) : Bool :=
  let msg := ( parse_ts_prefix line).2
  (bottleSearch msg.data).isSome || (xferSearch msg.data).isSome ||
    (wanSearch msg.data).isSome || (retrySearch msg.data).isSome

/-- The `validate` loop of `main`: a matching line is printed and
counted, and the loop breaks as soon as `shown >= limit` after a print.
Returns (printed lines, number of input lines read); `limit : ℤ`
because `argparse` accepts any integer. -/
def validateLoop (limit : ℤ) : List String → ℤ → List String × ℕ
  | [], _ => ([], 0)
  | l :: ls, shown =>
    if anyMatchLine l then
      if shown + 1 ≥ limit then ([l], 1)
      else
        let r := validateLoop limit ls (shown + 1)
        (l :: r.1, r.2 + 1)
    else
      let r := validateLoop limit ls shown
      (r.1, r.2 + 1)

/-- Validate mode on a line sequence (`shown` starts at 0). -/
def validateRun (lines : List String) (limit : ℤ) : List String × ℕ :=
  validateLoop limit lines 0

theorem validateLoop_take (limit : ℤ) (lines : List String) :
    ∀ shown : ℤ, shown < limit →
      (validateLoop limit lines shown).1 =
        (lines.filter anyMatchLine).take (limit - shown).toNat := by
  induction lines with
  | nil => intro shown _; simp [validateLoop]
  | cons l ls ih =>
    intro shown hs
    unfold validateLoop
    by_cases hm : anyMatchLine l
    · rw [if_pos hm]
      by_cases hstop : shown + 1 ≥ limit
      · rw [if_pos hstop]
        have hlim : limit - shown = 1 := by omega
        simp [List.filter_cons, hm, hlim]
      · rw [if_neg hstop]
        dsimp only
        rw [ih (shown + 1) (by omega)]
        have harith : (limit - shown).toNat = (limit - (shown + 1)).toNat + 1 := by
          omega
        simp [List.filter_cons, hm, harith]
    · rw [if_neg hm]
      dsimp only
      rw [ih shown hs]
      simp [List.filter_cons, hm]

theorem validateLoop_consumed (limit : ℤ) (lines : List String) :
    ∀ shown : ℤ, shown < limit →
      ((lines.filter anyMatchLine).length : ℤ) > limit - shown →
      (validateLoop limit lines shown).2 < lines.length := by
  induction lines with
  | nil =>
    intro shown _ hM
    simp at hM
    omega
  | cons l ls ih =>
    intro shown hs hM
    unfold validateLoop
    by_cases hm : anyMatchLine l
    · rw [if_pos hm]
      rw [List.filter_cons, if_pos hm] at hM
      by_cases hstop : shown + 1 ≥ limit
      · rw [if_pos hstop]
        have hM' : 1 ≤ (ls.filter anyMatchLine).length := by
          simp at hM
          omega
        have := List.length_filter_le anyMatchLine ls
        simp only [List.length_cons]
        omega
      · rw [if_neg hstop]
        dsimp only
        have := ih (shown + 1) (by omega) (by simp at hM ⊢; omega)
        simp only [List.length_cons]
        omega
    · rw [if_neg hm]
      rw [List.filter_cons, if_neg hm] at hM
      dsimp only
      have := ih shown hs (by omega)
      simp only [List.length_cons]
      omega

/-- C4 (amended): for every limit `N ≥ 1`, validate mode prints exactly
`min(N, M)` lines (`M` = number of matching lines), each printed line
being an original raw line in input order, and stops reading once the
limit is reached (when more than `N` lines match, it does not reach the
end of the input). For `N ≤ 0` the code still prints the first matching
line before checking the limit, so the claim fails there (see the
counterexample). -/
theorem C4_validate (lines : List String) (N : ℤ) (hN : 1 ≤ N) :
    (validateRun lines N).1 = (lines.filter anyMatchLine).take N.toNat ∧
    (validateRun lines N).1.length =
      min N.toNat (lines.filter anyMatchLine).length ∧
    (((lines.filter anyMatchLine).length : ℤ) > N →
      (validateRun lines N).2 < lines.length) := by
  refine ⟨?_, ?_, ?_⟩
  · have := validateLoop_take N lines 0 (by omega)
    simpa [validateRun] using this
  · have h := validateLoop_take N lines 0 (by omega)
    show (validateLoop N lines 0).1.length = _
    rw [h, List.length_take]
    congr 1
    omega
  · intro hM
    have := validateLoop_consumed N lines 0 (by omega) (by omega)
    simpa [validateRun] using this

theorem C4_validate_witness :
    (validateRun ["retries: 1", "junk", "retries: 2", "retries: 3",
      "retries: 4", "retries: 5"] 2).1 = ["retries: 1", "retries: 2"] ∧
    (validateRun ["retries: 1", "junk", "retries: 2", "retries: 3",
      "retries: 4", "retries: 5"] 2).2 < 6 := by
  have h := C4_validate ["retries: 1", "junk", "retries: 2", "retries: 3",
    "retries: 4", "retries: 5"] 2 (by omega)
  refine ⟨?_, ?_⟩
  · rw [h.1]
    decide
  · exact h.2.2 (by decide)

/-- C4 counterexample: with caller-supplied limit `N = 0` and one
matching line, validate mode still prints that line (the limit check
runs only after a print), so it prints 1 line, not `min(0, 1) = 0`. -/
theorem C4_counterexample :
    (validateRun ["retries: 1"] 0).1.length = 1 ∧
    min ((0 : ℤ)).toNat ((["retries: 1"].filter anyMatchLine).length) = 0 ∧
    (1 : ℕ) ≠ 0 := by
  refine ⟨by decide, by decide, by decide⟩

/-- Does a field need quoting under the csv module's QUOTE_MINIMAL:
does it contain the delimiter, the quote char or a line-terminator
character? -/
def needsQuote (s : List Char) : Bool :=
  s.any (fun c => c = ',' || c = '"' || c = '\r' || c = '\n')

/-- Double each quote character (csv `doublequote` mode). -/
def dupQuotes : List Char → List Char
  | [] => []
  | c :: cs => if c = '"' then '"' :: '"' :: dupQuotes cs else c :: dupQuotes cs

/-- Serialize one csv field (QUOTE_MINIMAL). -/
def encodeField (s : List Char) : List Char :=
  if needsQuote s then '"' :: (dupQuotes s ++ ['"']) else s

/-- Decimal digits of `n`, least significant first (fueled). -/
def natDigitsRevAux : ℕ → ℕ → List Char
  | 0, _ => []
  | fuel + 1, n =>
    if n = 0 then [] else Nat.digitChar (n % 10) :: natDigitsRevAux fuel (n / 10)

/-- Decimal representation of a natural number (`str(n)`). -/
def natStr (n : ℕ) : List Char :=
  if n = 0 then ['0'] else (natDigitsRevAux n n).reverse

/-- Decimal representation of an integer (`str(n)`). -/
def intStr (n : ℤ) : List Char :=
  if n < 0 then '-' :: natStr (-n).toNat else natStr n.toNat

/-- A `None`-able int cell: `None` is written as the empty field. -/
def optIntCell : Option ℤ → List Char
  | none => []
  | some n => intStr n

/-- A `None`-able string cell: `None` is written as the empty field. -/
def optStrCell : Option String → List Char
  | none => []
  | some s => s.data

/-- The cells of one record, in the writer's fixed column order. -/
def rowCells (r : Row) : List (List Char) :=
  [optStrCell r.event_time, optIntCell r.bytes_sent, optIntCell r.duration_s,
   optIntCell r.network_bottleneck_pct, optIntCell r.wan_cache_hit_pct,
   optIntCell r.retries, r.message.data]

/-- The header cells, in the writer's fixed column order. -/
def headerCells : List (List Char) :=
  [("event_time").data, ("bytes_sent").data, ("duration_s").data,
   ("network_bottleneck_pct").data, ("wan_cache_hit_pct").data,
   ("retries").data, ("message").data]

/-- Comma-join a list of encoded fields. -/
def joinComma : List (List Char) → List Char
  | [] => []
  | [f] => f
  | f :: fs => f ++ ',' :: joinComma fs

/-- One csv record line: joined encoded fields plus the default
lineterminator `\r\n`. -/
def encodeRecord (cells : List (List Char)) : List Char :=
  joinComma (cells.map encodeField) ++ ['\r', '\n']

/-- `write_csv`: the text written by `csv.DictWriter` — a header row,
then one row per record, `None` fields as empty cells. -/
def write_csv (rows : List Row) : List Char :=
  encodeRecord headerCells ++
    (rows.map (fun r => encodeRecord (rowCells r))).flatten

/-- csv reader, quoted-field state: consume until the closing quote,
un-doubling `""`. -/
def parseQuoted : List Char → List Char → List Char × List Char
  | acc, [] => (acc.reverse, [])
  | acc, '"' :: rest =>
    match rest with
    | '"' :: r2 => parseQuoted ('"' :: acc) r2
    | _ => (acc.reverse, rest)
  | acc, c :: cs => parseQuoted (c :: acc) cs

/-- csv reader, bare-field state: consume until a delimiter or
record-terminator character. -/
def parseBare : List Char → List Char → List Char × List Char
  | acc, [] => (acc.reverse, [])
  | acc, c :: cs =>
    if c = ',' ∨ c = '\r' ∨ c = '\n' then (acc.reverse, c :: cs)
    else parseBare (c :: acc) cs

/-- csv reader: one field. -/
def parseField (l : List Char) : List Char × List Char :=
  if l.head? = some '"' then parseQuoted [] l.tail else parseBare [] l

/-- csv reader: one record (fields separated by `,`, terminated by
`\r\n`, `\n` or end of input); the fuel bounds the field count. -/
def parseRecordAux : ℕ → List Char → List (List Char) × List Char
  | 0, l => ([], l)
  | fuel + 1, l =>
    let fr := parseField l
    if fr.2.head? = some ',' then
      let r := parseRecordAux fuel fr.2.tail
      (fr.1 :: r.1, r.2)
    else if fr.2.head? = some '\r' ∧ fr.2.tail.head? = some '\n' then
      ([fr.1], fr.2.tail.tail)
    else if fr.2.head? = some '\n' then ([fr.1], fr.2.tail)
    else ([fr.1], fr.2)

/-- csv reader: all records (the fuel bounds the record count). -/
def parseRecords : ℕ → List Char → List (List (List Char))
  | 0, _ => []
  | fuel + 1, l =>
    if l = [] then []
    else
      let r := parseRecordAux (l.length + 1) l
      r.1 :: parseRecords fuel r.2

/-- csv reader: a whole file. -/
def read_csv (s : List Char) : List (List (List Char)) :=
  parseRecords (s.length + 1) s

/-- Read an int cell back, treating the empty cell as null. -/
def decodeIntCell (s : List Char) : Option (Option ℤ) :=
  if s = [] then some none else (pyIntOfStr s).map some

/-- Decode one csv record back into a `Row` (empty cells are null; a
null message cannot be represented, so it fails). -/
def decodeRow : List (List Char) → Option Row
  | [t, b, d, nb, w, r, m] =>
    match decodeIntCell b, decodeIntCell d, decodeIntCell nb,
        decodeIntCell w, decodeIntCell r with
    | some b', some d', some nb', some w', some r' =>
      if m = [] then none
      else some
        { event_time := if t = [] then none else some ⟨t⟩
          bytes_sent := b', duration_s := d', network_bottleneck_pct := nb'
          wan_cache_hit_pct := w', retries := r', message := ⟨m⟩ }
    | _, _, _, _, _ => none
  | _ => none

/-- Read a written csv file back into records: skip the header record,
decode every remaining record. -/
def readBack (s : List Char) : Option (List Row) :=
  match read_csv s with
  | [] => none
  | _hdr :: recs => recs.mapM decodeRow

theorem pyDigit_digitChar (d : ℕ) (hd : d < 10) :
    pyDigit (Nat.digitChar d) = true := by
  interval_cases d <;> decide

theorem toNat_digitChar (d : ℕ) (hd : d < 10) :
    (Nat.digitChar d).toNat - 48 = d := by
  interval_cases d <;> decide

/-- Little-endian digit value. -/
def valRev : List Char → ℕ
  | [] => 0
  | c :: cs => (c.toNat - 48) + 10 * valRev cs

theorem digitsVal_append (a b : List Char) :
    digitsVal (a ++ b) = digitsVal a * 10 ^ b.length + digitsVal b := by
  induction b generalizing a with
  | nil => simp [digitsVal]
  | cons c cs ih =>
    have h1 : a ++ c :: cs = (a ++ [c]) ++ cs := by simp
    rw [h1, ih (a ++ [c])]
    have h2 : digitsVal (a ++ [c]) = 10 * digitsVal a + (c.toNat - 48) := by
      unfold digitsVal
      rw [List.foldl_append]
      rfl
    have h3 : digitsVal (c :: cs) = digitsVal ([c] ++ cs) := rfl
    rw [h3, ih [c]]
    have h4 : digitsVal [c] = c.toNat - 48 := by
      unfold digitsVal
      simp
    rw [h2, h4, List.length_cons]
    ring

theorem digitsVal_reverse_valRev (l : List Char) :
    digitsVal l.reverse = valRev l := by
  induction l with
  | nil => rfl
  | cons c cs ih =>
    rw [List.reverse_cons, digitsVal_append, ih]
    have h4 : digitsVal [c] = c.toNat - 48 := by
      unfold digitsVal
      simp
    have h5 : valRev (c :: cs) = (c.toNat - 48) + 10 * valRev cs := rfl
    rw [h4, h5]
    simp
    ring

theorem valRev_natDigitsRevAux (fuel : ℕ) : ∀ n, n ≤ fuel →
    valRev (natDigitsRevAux fuel n) = n := by
  induction fuel with
  | zero =>
    intro n hn
    have : n = 0 := by omega
    subst this
    rfl
  | succ f ih =>
    intro n hn
    unfold natDigitsRevAux
    by_cases h0 : n = 0
    · rw [if_pos h0, h0]
      rfl
    · rw [if_neg h0]
      unfold valRev
      rw [ih (n / 10) (by omega), toNat_digitChar (n % 10) (by omega)]
      omega

theorem natDigitsRevAux_digits (fuel : ℕ) : ∀ n, ∀ c ∈ natDigitsRevAux fuel n,
    pyDigit c = true := by
  induction fuel with
  | zero => intro n c hc; cases hc
  | succ f ih =>
    intro n c hc
    unfold natDigitsRevAux at hc
    by_cases h0 : n = 0
    · rw [if_pos h0] at hc
      cases hc
    · rw [if_neg h0] at hc
      rcases List.mem_cons.mp hc with hc | hc
      · rw [hc]
        exact pyDigit_digitChar _ (by omega)
      · exact ih (n / 10) c hc

theorem natStr_digits (n : ℕ) : ∀ c ∈ natStr n, pyDigit c = true := by
  intro c hc
  unfold natStr at hc
  by_cases h0 : n = 0
  · rw [if_pos h0] at hc
    simp at hc
    subst hc
    decide
  · rw [if_neg h0] at hc
    exact natDigitsRevAux_digits n n c (List.mem_reverse.mp hc)

theorem natStr_ne_nil (n : ℕ) : natStr n ≠ [] := by
  unfold natStr
  by_cases h0 : n = 0
  · rw [if_pos h0]
    simp
  · rw [if_neg h0]
    intro h
    have := valRev_natDigitsRevAux n n (le_refl n)
    rw [List.reverse_eq_nil_iff.mp h] at this
    exact h0 (by simpa [valRev] using this.symm)

theorem digitsVal_natStr (n : ℕ) : digitsVal (natStr n) = n := by
  unfold natStr
  by_cases h0 : n = 0
  · rw [if_pos h0, h0]
    decide
  · rw [if_neg h0, digitsVal_reverse_valRev, valRev_natDigitsRevAux n n (le_refl n)]

theorem pyIntOfStr_neg_digits (l : List Char) (hne : l ≠ [])
    (h : ∀ c ∈ l, pyDigit c = true) :
    pyIntOfStr ('-' :: l) = some (-(digitsVal l : ℤ)) := by
  obtain ⟨c, cs, rfl⟩ : ∃ c cs, l = c :: cs := by
    cases l with
    | nil => exact absurd rfl hne
    | cons c cs => exact ⟨c, cs, rfl⟩
  have hc : pyDigit c = true := h c (by simp)
  have htrim : trimSpaces ('-' :: c :: cs) = '-' :: c :: cs := by
    apply trimSpaces_eq_self
    intro x hx
    rcases List.mem_cons.mp hx with hx | hx
    · rw [hx]; decide
    · exact pySpace_eq_false_of_digit x (h x hx)
  have hsign : signSplit (trimSpaces ('-' :: c :: cs)) = (true, c :: cs) := by
    rw [htrim]
    unfold signSplit
    simp
  unfold pyIntOfStr
  rw [hsign]
  simp only [if_pos hc, digitRun_all_digits (c :: cs) h 0 0]
  rfl

theorem pyIntOfStr_intStr (n : ℤ) : pyIntOfStr (intStr n) = some n := by
  unfold intStr
  by_cases hn : n < 0
  · rw [if_pos hn,
      pyIntOfStr_neg_digits _ (natStr_ne_nil _) (natStr_digits _),
      digitsVal_natStr]
    congr 1
    omega
  · rw [if_neg hn,
      pyIntOfStr_digits _ (natStr_ne_nil _) (natStr_digits _),
      digitsVal_natStr]
    simp only [Option.pure_def, Option.bind_eq_bind, Option.some_bind,
      Option.some.injEq]
    omega

theorem decodeIntCell_optIntCell (o : Option ℤ) :
    decodeIntCell (optIntCell o) = some o := by
  cases o with
  | none => rfl
  | some n =>
    have hne : intStr n ≠ [] := by
      unfold intStr
      by_cases hn : n < 0
      · rw [if_pos hn]; simp
      · rw [if_neg hn]; exact natStr_ne_nil _
    have h1 : optIntCell (some n) = intStr n := rfl
    rw [h1]
    unfold decodeIntCell
    rw [if_neg hne, pyIntOfStr_intStr]
    rfl

theorem parseBare_spec (s : List Char) : ∀ acc d,
    (∀ c ∈ s, ¬(c = ',' ∨ c = '\r' ∨ c = '\n')) →
    (d.head? = some ',' ∨ d.head? = some '\r') →
    parseBare acc (s ++ d) = (acc.reverse ++ s, d) := by
  induction s with
  | nil =>
    intro acc d _ hd
    obtain ⟨x, xs, rfl⟩ : ∃ x xs, d = x :: xs := by
      cases d with
      | nil => simp at hd
      | cons x xs => exact ⟨x, xs, rfl⟩
    simp only [List.head?_cons, Option.some.injEq] at hd
    show parseBare acc (x :: xs) = (acc.reverse ++ [], x :: xs)
    unfold parseBare
    rw [if_pos]
    · simp
    · rcases hd with hd | hd
      · exact Or.inl hd
      · exact Or.inr (Or.inl hd)
  | cons c cs ih =>
    intro acc d hs hd
    have hc : ¬(c = ',' ∨ c = '\r' ∨ c = '\n') := hs c (by simp)
    show parseBare acc (c :: (cs ++ d)) = (acc.reverse ++ c :: cs, d)
    unfold parseBare
    rw [if_neg hc, ih (c :: acc) d (fun x hx => hs x (by simp [hx])) hd]
    simp

theorem parseQuoted_spec (s : List Char) : ∀ acc d,
    d.head? ≠ some '"' →
    parseQuoted acc (dupQuotes s ++ '"' :: d) = (acc.reverse ++ s, d) := by
  induction s with
  | nil =>
    intro acc d hd
    show parseQuoted acc ('"' :: d) = (acc.reverse ++ [], d)
    rw [parseQuoted.eq_3]
    · simp
    · intro r2 hr
      rw [hr] at hd
      simp at hd
  | cons c cs ih =>
    intro acc d hd
    by_cases hc : c = '"'
    · subst hc
      have h1 : dupQuotes ('"' :: cs) ++ '"' :: d =
          '"' :: '"' :: (dupQuotes cs ++ '"' :: d) := by
        rw [dupQuotes.eq_2, if_pos rfl]
        rfl
      rw [h1, parseQuoted.eq_2, ih ('"' :: acc) d hd]
      simp
    · have h1 : dupQuotes (c :: cs) ++ '"' :: d =
          c :: (dupQuotes cs ++ '"' :: d) := by
        rw [dupQuotes.eq_2, if_neg hc]
        rfl
      rw [h1, parseQuoted.eq_4 _ _ _ (fun h => hc h), ih (c :: acc) d hd]
      simp

theorem head_ne_quote_of_delim (d : List Char)
    (hd : d.head? = some ',' ∨ d.head? = some '\r') :
    d.head? ≠ some '"' := by
  rcases hd with hd | hd <;> rw [hd] <;> simp

theorem parseField_spec (s d : List Char)
    (hd : d.head? = some ',' ∨ d.head? = some '\r') :
    parseField (encodeField s ++ d) = (s, d) := by
  unfold encodeField
  by_cases hq : needsQuote s
  · rw [if_pos hq]
    have h1 : ('"' :: (dupQuotes s ++ ['"'])) ++ d =
        '"' :: (dupQuotes s ++ '"' :: d) := by simp
    rw [h1]
    unfold parseField
    rw [if_pos (by simp)]
    show parseQuoted [] (dupQuotes s ++ '"' :: d) = (s, d)
    rw [parseQuoted_spec s [] d (head_ne_quote_of_delim d hd)]
    simp
  · rw [if_neg hq]
    have hnone : ∀ c ∈ s, (c = ',' || c = '"' || c = '\r' || c = '\n') = false := by
      intro c hc
      cases hb : (c = ',' || c = '"' || c = '\r' || c = '\n') with
      | false => rfl
      | true => exact absurd (List.any_eq_true.mpr ⟨c, hc, hb⟩) hq
    have hhead : (s ++ d).head? ≠ some '"' := by
      cases s with
      | nil =>
        simpa using head_ne_quote_of_delim d hd
      | cons c cs =>
        have := hnone c (by simp)
        simp only [Bool.or_eq_false_iff, decide_eq_false_iff_not] at this
        simp [this.1.1.2]
    unfold parseField
    rw [if_neg (by exact fun h => hhead h)]
    refine (parseBare_spec s [] d ?_ hd).trans (by simp)
    intro c hc
    have := hnone c hc
    simp only [Bool.or_eq_false_iff, decide_eq_false_iff_not] at this
    rintro (h | h | h)
    · exact this.1.1.1 h
    · exact this.1.2 h
    · exact this.2 h

theorem joinComma_cons2 (a b : List Char) (l : List (List Char)) :
    joinComma (a :: b :: l) = a ++ ',' :: joinComma (b :: l) := rfl

theorem joinComma_length (l : List (List Char)) :
    l.length ≤ (joinComma l).length + 1 := by
  induction l with
  | nil => simp [joinComma]
  | cons f fs ih =>
    cases fs with
    | nil => simp [joinComma]
    | cons g gs =>
      rw [joinComma_cons2]
      simp only [List.length_cons, List.length_append] at *
      omega

theorem encodeRecord_length (cells : List (List Char)) :
    cells.length ≤ (encodeRecord cells).length := by
  unfold encodeRecord
  have h1 := joinComma_length (cells.map encodeField)
  simp only [List.length_map] at h1
  simp only [List.length_append, List.length_cons, List.length_nil]
  omega

theorem parseRecordAux_spec (cells : List (List Char)) : ∀ fuel rest,
    cells ≠ [] → cells.length ≤ fuel →
    parseRecordAux fuel
      (joinComma (cells.map encodeField) ++ '\r' :: '\n' :: rest) =
      (cells, rest) := by
  induction cells with
  | nil => intro fuel rest hne _; exact absurd rfl hne
  | cons c cs ih =>
    intro fuel rest _ hlen
    obtain ⟨f, rfl⟩ : ∃ f, fuel = f + 1 := by
      cases fuel with
      | zero => simp at hlen
      | succ f => exact ⟨f, rfl⟩
    cases cs with
    | nil =>
      have h1 : joinComma ([c].map encodeField) = encodeField c := rfl
      rw [h1]
      show parseRecordAux (f + 1) (encodeField c ++ '\r' :: '\n' :: rest) =
        ([c], rest)
      unfold parseRecordAux
      rw [parseField_spec c ('\r' :: '\n' :: rest) (Or.inr rfl)]
      simp
    | cons c2 cs2 =>
      have h1 : joinComma ((c :: c2 :: cs2).map encodeField) ++
          '\r' :: '\n' :: rest =
          encodeField c ++ ',' ::
            (joinComma ((c2 :: cs2).map encodeField) ++ '\r' :: '\n' :: rest) := by
        simp only [List.map_cons]
        rw [joinComma_cons2]
        simp
      rw [h1]
      unfold parseRecordAux
      rw [parseField_spec c
        (',' :: (joinComma ((c2 :: cs2).map encodeField) ++ '\r' :: '\n' :: rest))
        (Or.inl rfl)]
      simp only [List.head?_cons, Option.some.injEq, List.tail_cons, if_pos]
      rw [ih f rest (by simp) (by simpa using Nat.le_of_succ_le_succ hlen)]

theorem encodeRecord_split (cells : List (List Char)) :
    encodeRecord cells =
      joinComma (cells.map encodeField) ++ ['\r', '\n'] := rfl

theorem encodeRecord_ne_nil (cells : List (List Char)) :
    encodeRecord cells ≠ [] := by
  rw [encodeRecord_split]
  simp

theorem length_le_flattenEnc (recs : List (List (List Char))) :
    recs.length ≤ ((recs.map encodeRecord).flatten).length := by
  induction recs with
  | nil => simp
  | cons cells rest ih =>
    simp only [List.map_cons, List.flatten_cons, List.length_cons,
      List.length_append]
    have h2 : 1 ≤ (encodeRecord cells).length := by
      rw [encodeRecord_split]
      simp
    omega

theorem parseRecords_spec (recs : List (List (List Char))) : ∀ fuel,
    (∀ r ∈ recs, r ≠ []) → recs.length ≤ fuel →
    parseRecords fuel ((recs.map encodeRecord).flatten) = recs := by
  induction recs with
  | nil =>
    intro fuel _ _
    cases fuel with
    | zero => rfl
    | succ f =>
      show parseRecords (f + 1) [] = []
      unfold parseRecords
      rw [if_pos rfl]
  | cons cells rest ih =>
    intro fuel hne hlen
    obtain ⟨f, rfl⟩ : ∃ f, fuel = f + 1 := by
      cases fuel with
      | zero => simp at hlen
      | succ f => exact ⟨f, rfl⟩
    have hl : (((cells :: rest).map encodeRecord).flatten : List Char) =
        joinComma (cells.map encodeField) ++
          '\r' :: '\n' :: ((rest.map encodeRecord).flatten) := by
      simp only [List.map_cons, List.flatten_cons, encodeRecord_split]
      simp
    rw [hl]
    unfold parseRecords
    rw [if_neg]
    · have hfuel : cells.length ≤
          (joinComma (cells.map encodeField) ++
            '\r' :: '\n' :: ((rest.map encodeRecord).flatten)).length + 1 := by
        have := encodeRecord_length cells
        rw [encodeRecord_split] at this
        simp only [List.length_append, List.length_cons, List.length_nil] at *
        omega
      rw [parseRecordAux_spec cells _ _ (hne cells (by simp)) hfuel]
      show cells :: parseRecords f ((List.map encodeRecord rest).flatten) =
        cells :: rest
      rw [ih f (fun r hr => hne r (by simp [hr]))
        (by simpa using Nat.le_of_succ_le_succ hlen)]
    · intro hcon
      have := congrArg List.length hcon
      simp at this

theorem read_csv_write_csv (rows : List Row) :
    read_csv (write_csv rows) = headerCells :: rows.map rowCells := by
  have hw : write_csv rows =
      (((headerCells :: rows.map rowCells).map encodeRecord).flatten) := by
    unfold write_csv
    simp [List.map_map, Function.comp_def]
  rw [hw]
  unfold read_csv
  apply parseRecords_spec
  · intro r hr
    rcases List.mem_cons.mp hr with hr | hr
    · rw [hr]
      simp [headerCells]
    · obtain ⟨row, _, rfl⟩ := List.mem_map.mp hr
      simp [rowCells]
  · have := length_le_flattenEnc (headerCells :: rows.map rowCells)
    omega

theorem data_ne_nil_of_ne_empty (s : String) (h : s ≠ "") : s.data ≠ [] := by
  intro hd
  apply h
  cases s with
  | mk d =>
    simp at hd
    rw [hd]

theorem decodeRow_rowCells (r : Row) (hm : r.message ≠ "")
    (ht : r.event_time ≠ some "") : decodeRow (rowCells r) = some r := by
  obtain ⟨t, b, d, nb, w, rt, m⟩ := r
  simp only at hm ht
  have hmd : m.data ≠ [] := data_ne_nil_of_ne_empty m hm
  unfold rowCells decodeRow
  simp only [decodeIntCell_optIntCell]
  rw [if_neg hmd]
  cases t with
  | none =>
    simp only [optStrCell, Option.some.injEq]
    cases m
    simp
  | some s =>
    have hs : s ≠ "" := fun h => ht (by rw [h])
    have hsd := data_ne_nil_of_ne_empty s hs
    simp only [optStrCell, Option.some.injEq]
    cases s
    cases m
    simp_all

theorem mapM_decodeRow (rows : List Row)
    (hm : ∀ r ∈ rows, r.message ≠ "")
    (ht : ∀ r ∈ rows, r.event_time ≠ some "") :
    (rows.map rowCells).mapM decodeRow = some rows := by
  induction rows with
  | nil => rfl
  | cons r rest ih =>
    simp only [List.map_cons, List.mapM_cons,
      decodeRow_rowCells r (hm r (by simp)) (ht r (by simp)),
      ih (fun x hx => hm x (by simp [hx])) (fun x hx => ht x (by simp [hx])),
      Option.pure_def, Option.bind_eq_bind, Option.some_bind]

/-- C8: writing records to CSV and reading them back (treating the empty
cell as null) reproduces the original records, provided every record's
message is non-empty and no present `event_time` is the empty string
(an empty string written to a cell is indistinguishable from null on
read-back). -/
theorem C8_csv_roundtrip (rows : List Row)
    (hm : ∀ r ∈ rows, r.message ≠ "")
    (ht : ∀ r ∈ rows, r.event_time ≠ some "") :
    readBack (write_csv rows) = some rows := by
  unfold readBack
  rw [read_csv_write_csv]
  exact mapM_decodeRow rows hm ht

/-- C8 witness: two concrete records (one with a quoted, comma-carrying
message) survive the round-trip. -/
theorem C8_csv_roundtrip_witness :
    (∀ r ∈ ([⟨some "2024-01-01 00:00:00", some 1610612736, some 3723,
              some 87, none, some 0, "Transfer done"⟩,
             ⟨none, none, none, none, none, some 2, "a,b\"c"⟩] : List Row),
        r.message ≠ "") ∧
    (∀ r ∈ ([⟨some "2024-01-01 00:00:00", some 1610612736, some 3723,
              some 87, none, some 0, "Transfer done"⟩,
             ⟨none, none, none, none, none, some 2, "a,b\"c"⟩] : List Row),
        r.event_time ≠ some "") ∧
    readBack (write_csv
      [⟨some "2024-01-01 00:00:00", some 1610612736, some 3723,
        some 87, none, some 0, "Transfer done"⟩,
       ⟨none, none, none, none, none, some 2, "a,b\"c"⟩]) =
      some [⟨some "2024-01-01 00:00:00", some 1610612736, some 3723,
             some 87, none, some 0, "Transfer done"⟩,
            ⟨none, none, none, none, none, some 2, "a,b\"c"⟩] :=
  ⟨by decide, by decide, C8_csv_roundtrip _ (by decide) (by decide)⟩

/-- C8 counterexample: a record whose `event_time` is present but equal to
the empty string is written as an empty cell and read back as null, so the
round-trip does not reproduce it. -/
theorem C8_counterexample :
    readBack (write_csv [⟨some "", none, none, none, none, none, "x"⟩]) ≠
      some [⟨some "", none, none, none, none, none, "x"⟩] := by decide
